import Mathlib

/-!
Verification development for the Wall-go board game engine.

The board model, connectivity engine, move generator, turn state machine and
AI search are embedded shallowly from the TypeScript sources:
  - utils/boardUtils.ts  (createInitialBoard, isValidCoordinate, placeWall,
    isBlocked, getValidMoves, getReachableArea, checkGameEndCondition,
    calculateScores, calculateLargestTerritory)
  - utils/aiUtils.ts     (deepCloneBoard, applyWall, removeWall,
    evaluateBoardState, calculateBestMove)
  - App.tsx              (endTurn, handleRandomWallPlacement, handleWallClick,
    switchPlayer)

Representation choices (value semantics of the source data):
  - A board CellData[][] is a fixed 7x7 grid; we embed it as a function
    Fin 7 → Fin 7 → CellData, applied row-first exactly like board[y][x].
    The source cells also carry x/y fields that always mirror the cell's
    array position; we pass coordinates alongside cells instead.
  - Coordinates are pairs of integers (the source uses JS numbers and forms
    x-1 / x+1 freely before bounds checks, so Nat would be unfaithful).
  - The Set<string> of "x,y" keys used by the flood fills is embedded as a
    list of coordinates; the key encoding is injective on coordinates.
  - While loops over a work queue are embedded with a fuel parameter; the
    fuel is chosen larger than the loop's iteration bound (each iteration
    pops one queue entry and each push marks a fresh visited cell, so the
    quantity length(queue) + (49 - length(visited)) strictly decreases).
-/

namespace WallGo

/-- Player identities, from types.ts (the four-player revision). -/
inductive Player where
  | RED
  | BLUE
  | GREEN
  | YELLOW
deriving DecidableEq, Repr

/-- The four wall slots of a cell, each absent or owned by a player (WallState). -/
structure WallState where
  top : Option Player
  right : Option Player
  bottom : Option Player
  left : Option Player
deriving DecidableEq, Repr

/-- A wall side name (keyof WallState in the source). -/
inductive Side where
  | top
  | right
  | bottom
  | left
deriving DecidableEq, Repr

/-- Read the wall slot named by a side. -/
def WallState.get (w : WallState) : Side → Option Player
  | Side.top => w.top
  | Side.right => w.right
  | Side.bottom => w.bottom
  | Side.left => w.left

/-- Write the wall slot named by a side. -/
def WallState.put (w : WallState) : Side → Option Player → WallState
  | Side.top, v => { w with top := v }
  | Side.right, v => { w with right := v }
  | Side.bottom, v => { w with bottom := v }
  | Side.left, v => { w with left := v }

/-- Cell contents: occupant slot and four wall slots (CellData without the
redundant x/y position fields, which we pass separately). -/
structure CellData where
  occupant : Option Player
  walls : WallState
deriving DecidableEq, Repr

/-- An (x, y) coordinate, from types.ts. -/
structure Coordinate where
  x : Int
  y : Int
deriving DecidableEq, Repr

/-- BOARD_SIZE = 7 from types.ts. -/
def BOARD_SIZE : Int := 7

/-- The 7x7 grid of cells, applied row-first like board[y][x]. -/
abbrev Board := Fin 7 → Fin 7 → CellData

/-- A cell with no occupant and no walls. -/
def emptyCell : CellData :=
  { occupant := none
    walls := { top := none, right := none, bottom := none, left := none } }

/-- createInitialBoard: every cell unoccupied with no walls. -/
def createInitialBoard : Board := fun _ _ => emptyCell

/-- isValidCoordinate: 0 ≤ x < BOARD_SIZE and 0 ≤ y < BOARD_SIZE. -/
def isValidCoordinate (c : Coordinate) : Prop :=
  0 ≤ c.x ∧ c.x < BOARD_SIZE ∧ 0 ≤ c.y ∧ c.y < BOARD_SIZE

instance (c : Coordinate) : Decidable (isValidCoordinate c) := by
  unfold isValidCoordinate; infer_instance

/-- The row index of a valid coordinate. -/
def coordYFin (c : Coordinate) (h : isValidCoordinate c) : Fin 7 :=
  ⟨c.y.toNat, by
    obtain ⟨_, _, hy0, hy7⟩ := h
    simp only [BOARD_SIZE] at hy7
    omega⟩

/-- The column index of a valid coordinate. -/
def coordXFin (c : Coordinate) (h : isValidCoordinate c) : Fin 7 :=
  ⟨c.x.toNat, by
    obtain ⟨hx0, hx7, _, _⟩ := h
    simp only [BOARD_SIZE] at hx7
    omega⟩

/-- Read board[c.y][c.x]; out-of-bounds reads (which would crash in the
source and are always guarded there) return the empty cell. -/
def cellAt (b : Board) (c : Coordinate) : CellData :=
  if h : isValidCoordinate c then b (coordYFin c h) (coordXFin c h)
  else emptyCell

/-- Replace board[c.y][c.x] by f of its current value (the result of an
in-place assignment after the source's value-identical clone); no-op out of
bounds, where the source is never called. -/
def setCellAt (b : Board) (c : Coordinate) (f : CellData → CellData) : Board :=
  if h : isValidCoordinate c then
    fun i j =>
      if i = coordYFin c h ∧ j = coordXFin c h then
        f (b i j)
      else b i j
  else b

/-- placeWall from boardUtils: clone the board (value-identical), set the wall
on the addressed cell, then mirror it onto the adjacent cell when that
neighbour exists. -/
def placeWall (b : Board) (x y : Int) (side : Side) (player : Player) : Board :=
  let b1 := setCellAt b ⟨x, y⟩ (fun cd => { cd with walls := cd.walls.put side (some player) })
  let b2 := if side = Side.top ∧ y > 0 then
      setCellAt b1 ⟨x, y - 1⟩ (fun cd => { cd with walls := { cd.walls with bottom := some player } })
    else b1
  let b3 := if side = Side.bottom ∧ y < BOARD_SIZE - 1 then
      setCellAt b2 ⟨x, y + 1⟩ (fun cd => { cd with walls := { cd.walls with top := some player } })
    else b2
  let b4 := if side = Side.left ∧ x > 0 then
      setCellAt b3 ⟨x - 1, y⟩ (fun cd => { cd with walls := { cd.walls with right := some player } })
    else b3
  if side = Side.right ∧ x < BOARD_SIZE - 1 then
    setCellAt b4 ⟨x + 1, y⟩ (fun cd => { cd with walls := { cd.walls with left := some player } })
  else b4

/-- applyWall from aiUtils: the in-place variant of placeWall used by the AI
search; its size variable board.length equals BOARD_SIZE, and on values its
effect is the same wall assignment plus mirroring. -/
def applyWall (b : Board) (x y : Int) (side : Side) (player : Player) : Board :=
  let b1 := setCellAt b ⟨x, y⟩ (fun cd => { cd with walls := cd.walls.put side (some player) })
  let b2 := if side = Side.top ∧ y > 0 then
      setCellAt b1 ⟨x, y - 1⟩ (fun cd => { cd with walls := { cd.walls with bottom := some player } })
    else b1
  let b3 := if side = Side.bottom ∧ y < BOARD_SIZE - 1 then
      setCellAt b2 ⟨x, y + 1⟩ (fun cd => { cd with walls := { cd.walls with top := some player } })
    else b2
  let b4 := if side = Side.left ∧ x > 0 then
      setCellAt b3 ⟨x - 1, y⟩ (fun cd => { cd with walls := { cd.walls with right := some player } })
    else b3
  if side = Side.right ∧ x < BOARD_SIZE - 1 then
    setCellAt b4 ⟨x + 1, y⟩ (fun cd => { cd with walls := { cd.walls with left := some player } })
  else b4

/-- removeWall from aiUtils: the backtracking inverse, clearing the wall slot
on the addressed cell and on the mirrored neighbour slot when it exists. -/
def removeWall (b : Board) (x y : Int) (side : Side) : Board :=
  let b1 := setCellAt b ⟨x, y⟩ (fun cd => { cd with walls := cd.walls.put side none })
  let b2 := if side = Side.top ∧ y > 0 then
      setCellAt b1 ⟨x, y - 1⟩ (fun cd => { cd with walls := { cd.walls with bottom := none } })
    else b1
  let b3 := if side = Side.bottom ∧ y < BOARD_SIZE - 1 then
      setCellAt b2 ⟨x, y + 1⟩ (fun cd => { cd with walls := { cd.walls with top := none } })
    else b2
  let b4 := if side = Side.left ∧ x > 0 then
      setCellAt b3 ⟨x - 1, y⟩ (fun cd => { cd with walls := { cd.walls with right := none } })
    else b3
  if side = Side.right ∧ x < BOARD_SIZE - 1 then
    setCellAt b4 ⟨x + 1, y⟩ (fun cd => { cd with walls := { cd.walls with left := none } })
  else b4

/-- isBlocked from boardUtils: for a step from one cell to another, look up
the wall slot of the source cell facing the target; non-adjacent pairs are
always blocked. The source reads the coordinates from the two cell records;
here they are passed alongside the source cell's contents. -/
def isBlocked (cfrom : Coordinate) (fromCell : CellData) (cto : Coordinate) : Bool :=
  if cto.x = cfrom.x ∧ cto.y = cfrom.y - 1 then fromCell.walls.top.isSome
  else if cto.x = cfrom.x ∧ cto.y = cfrom.y + 1 then fromCell.walls.bottom.isSome
  else if cto.x = cfrom.x - 1 ∧ cto.y = cfrom.y then fromCell.walls.left.isSome
  else if cto.x = cfrom.x + 1 ∧ cto.y = cfrom.y then fromCell.walls.right.isSome
  else true

/-- The direction list Up, Down, Left, Right shared by all the BFS loops. -/
def directions : List Coordinate := [⟨0, -1⟩, ⟨0, 1⟩, ⟨-1, 0⟩, ⟨1, 0⟩]

/-- All board coordinates in the scan order of the nested for loops
(y outer, x inner). -/
def boardCoords : List Coordinate :=
  ((List.range 7).map (fun y => (List.range 7).map
    (fun x => (⟨Int.ofNat x, Int.ofNat y⟩ : Coordinate)))).flatten

/-- The coordinates holding a given player's pieces, in scan order. -/
def piecesOf (b : Board) (player : Player) : List Coordinate :=
  boardCoords.filter (fun c => (cellAt b c).occupant == some player)

/-- One queue-entry expansion of the getReachableArea loop: try the four
directions in order, adding unvisited empty unblocked in-bounds neighbours to
the visited set and to the queue tail. -/
def graExpand (b : Board) (curr : Coordinate) :
    List Coordinate → List Coordinate → List Coordinate → List Coordinate × List Coordinate
  | [], vis, newq => (vis, newq)
  | d :: ds, vis, newq =>
      let next : Coordinate := ⟨curr.x + d.x, curr.y + d.y⟩
      if isValidCoordinate next then
        if ¬ isBlocked curr (cellAt b curr) next then
          if next ∉ vis ∧ (cellAt b next).occupant = none then
            graExpand b curr ds (vis ++ [next]) (newq ++ [next])
          else graExpand b curr ds vis newq
        else graExpand b curr ds vis newq
      else graExpand b curr ds vis newq

/-- The getReachableArea work loop (fuel-indexed embedding of the while
loop; the fuel passed below exceeds the loop's iteration bound). -/
def graAux (b : Board) : Nat → List Coordinate → List Coordinate → List Coordinate
  | 0, _, vis => vis
  | _ + 1, [], vis => vis
  | fuel + 1, curr :: qs, vis =>
      let st := graExpand b curr directions vis []
      graAux b fuel (qs ++ st.2) st.1

/-- getReachableArea from boardUtils: flood fill seeded at every piece of the
player, expanding through unblocked empty cells; returns the visited set (as
the insertion-ordered list of coordinates). -/
def getReachableArea (b : Board) (player : Player) : List Coordinate :=
  let seeds := piecesOf b player
  graAux b 100 seeds seeds

/-- A queue entry of the getValidMoves BFS: coordinate plus step distance. -/
structure QEntry where
  coord : Coordinate
  dist : Nat
deriving DecidableEq, Repr

/-- One queue-entry expansion of the getValidMoves loop. -/
def gvmExpand (b : Board) (curr : Coordinate) (dist : Nat) :
    List Coordinate → List Coordinate → List Coordinate → List QEntry →
      List Coordinate × List Coordinate × List QEntry
  | [], vis, moves, newq => (vis, moves, newq)
  | d :: ds, vis, moves, newq =>
      let next : Coordinate := ⟨curr.x + d.x, curr.y + d.y⟩
      if isValidCoordinate next then
        if ¬ isBlocked curr (cellAt b curr) next ∧ (cellAt b next).occupant = none then
          if next ∉ vis then
            gvmExpand b curr dist ds (vis ++ [next]) (moves ++ [next]) (newq ++ [⟨next, dist + 1⟩])
          else gvmExpand b curr dist ds vis moves newq
        else gvmExpand b curr dist ds vis moves newq
      else gvmExpand b curr dist ds vis moves newq

/-- The getValidMoves work loop; entries at distance 2 or more are popped
without expansion. -/
def gvmAux (b : Board) : Nat → List QEntry → List Coordinate → List Coordinate →
    List Coordinate × List Coordinate
  | 0, _, vis, moves => (vis, moves)
  | _ + 1, [], vis, moves => (vis, moves)
  | fuel + 1, e :: qs, vis, moves =>
      if e.dist ≥ 2 then gvmAux b fuel qs vis moves
      else
        let st := gvmExpand b e.coord e.dist directions vis moves []
        gvmAux b fuel (qs ++ st.2.2) st.1 st.2.1

/-- getValidMoves from boardUtils: BFS to depth 2 from the start coordinate;
the start itself is recorded as a valid move before the loop. -/
def getValidMoves (b : Board) (start : Coordinate) : List Coordinate :=
  (gvmAux b 100 [⟨start, 0⟩] [start] [start]).2

/-- One queue-entry expansion of the checkGameEndCondition loop; the result
is none when a BLUE piece has been reached (the source returns false there). -/
def cgecExpand (b : Board) (curr : Coordinate) :
    List Coordinate → List Coordinate → List Coordinate →
      Option (List Coordinate × List Coordinate)
  | [], vis, newq => some (vis, newq)
  | d :: ds, vis, newq =>
      let next : Coordinate := ⟨curr.x + d.x, curr.y + d.y⟩
      if isValidCoordinate next then
        if ¬ isBlocked curr (cellAt b curr) next then
          if (cellAt b next).occupant = some Player.BLUE then none
          else if (cellAt b next).occupant = none ∧ next ∉ vis then
            cgecExpand b curr ds (vis ++ [next]) (newq ++ [next])
          else cgecExpand b curr ds vis newq
        else cgecExpand b curr ds vis newq
      else cgecExpand b curr ds vis newq

/-- The checkGameEndCondition work loop. -/
def cgecAux (b : Board) : Nat → List Coordinate → List Coordinate → Bool
  | 0, _, _ => true
  | _ + 1, [], _ => true
  | fuel + 1, curr :: qs, vis =>
      match cgecExpand b curr directions vis [] with
      | none => false
      | some st => cgecAux b fuel (qs ++ st.2) st.1

/-- checkGameEndCondition from boardUtils (the two-player revision shipped in
the sources): BFS from all RED pieces through unblocked empty cells; returns
false as soon as a BLUE piece is adjacent to the explored region, and true
when the search is exhausted. -/
def checkGameEndCondition (b : Board) : Bool :=
  let seeds := piecesOf b Player.RED
  cgecAux b 200 seeds seeds

/-- calculateScores from boardUtils (the two-player revision): reachable-area
sizes for RED and BLUE only. -/
def calculateScores (b : Board) : Player → Option Nat
  | Player.RED => some (getReachableArea b Player.RED).length
  | Player.BLUE => some (getReachableArea b Player.BLUE).length
  | _ => none

/-- One queue-entry expansion of the inner flood of calculateLargestTerritory;
state is (visitedLocal, visitedGlobal, currentSize, queue tail). The outer
condition admitting the player's own pieces is kept from the source even
though only its empty-cell inner branch has an effect. -/
def cltExpand (b : Board) (player : Player) (curr : Coordinate) :
    List Coordinate → List Coordinate → List Coordinate → Nat → List Coordinate →
      List Coordinate × List Coordinate × Nat × List Coordinate
  | [], lvis, gvis, size, newq => (lvis, gvis, size, newq)
  | d :: ds, lvis, gvis, size, newq =>
      let next : Coordinate := ⟨curr.x + d.x, curr.y + d.y⟩
      if isValidCoordinate next then
        if ¬ isBlocked curr (cellAt b curr) next then
          if ((cellAt b next).occupant = none ∨ (cellAt b next).occupant = some player)
              ∧ next ∉ lvis then
            if (cellAt b next).occupant = none ∧ next ∉ lvis then
              cltExpand b player curr ds (lvis ++ [next]) (gvis ++ [next]) (size + 1)
                (newq ++ [next])
            else cltExpand b player curr ds lvis gvis size newq
          else cltExpand b player curr ds lvis gvis size newq
        else cltExpand b player curr ds lvis gvis size newq
      else cltExpand b player curr ds lvis gvis size newq

/-- The inner flood loop of calculateLargestTerritory; returns the updated
global visited set and the component size. -/
def cltAux (b : Board) (player : Player) :
    Nat → List Coordinate → List Coordinate → List Coordinate → Nat →
      List Coordinate × Nat
  | 0, _, _, gvis, size => (gvis, size)
  | _ + 1, [], _, gvis, size => (gvis, size)
  | fuel + 1, curr :: qs, lvis, gvis, size =>
      let st := cltExpand b player curr directions lvis gvis size []
      cltAux b player fuel (qs ++ st.2.2.2) st.1 st.2.1 st.2.2.1

/-- calculateLargestTerritory from boardUtils: for each piece of the player
not in the global visited set, run a fresh flood (local visited set seeded at
the piece, size starting at 1) and keep the maximum size. -/
def calculateLargestTerritory (b : Board) (player : Player) : Nat :=
  (((piecesOf b player).foldl (fun (st : Nat × List Coordinate) startPiece =>
      if startPiece ∈ st.2 then st
      else
        let r := cltAux b player 100 [startPiece] [startPiece] (st.2 ++ [startPiece]) 1
        (if r.2 > st.1 then r.2 else st.1, r.1))
    (0, []))).1

/-- Modelled from the spec: the activePlayers-aware calculateScores that the
four-player App imports from utils/boardUtils (that revision of boardUtils is
absent from the provided sources). Spec section 4.4: on game over compute all
players' scores via reachableArea sizes; scores of inactive players are
absent (the score record is optional-keyed). -/
def calculateScoresActive (b : Board) (activePlayers : List Player) : Player → Option Nat :=
  fun p => if p ∈ activePlayers then some (getReachableArea b p).length else none

/-- One queue-entry expansion of the modelled N-player game-end check; none
signals that a cell occupied by another active player was touched. -/
def cgecaExpand (b : Board) (others : List Player) (curr : Coordinate) :
    List Coordinate → List Coordinate → List Coordinate →
      Option (List Coordinate × List Coordinate)
  | [], vis, newq => some (vis, newq)
  | d :: ds, vis, newq =>
      let next : Coordinate := ⟨curr.x + d.x, curr.y + d.y⟩
      if isValidCoordinate next then
        if ¬ isBlocked curr (cellAt b curr) next then
          match (cellAt b next).occupant with
          | some q =>
              if q ∈ others then none
              else cgecaExpand b others curr ds vis newq
          | none =>
              if next ∉ vis then cgecaExpand b others curr ds (vis ++ [next]) (newq ++ [next])
              else cgecaExpand b others curr ds vis newq
        else cgecaExpand b others curr ds vis newq
      else cgecaExpand b others curr ds vis newq

/-- The work loop of the modelled N-player game-end check. -/
def cgecaAux (b : Board) (others : List Player) :
    Nat → List Coordinate → List Coordinate → Bool
  | 0, _, _ => true
  | _ + 1, [], _ => true
  | fuel + 1, curr :: qs, vis =>
      match cgecaExpand b others curr directions vis [] with
      | none => false
      | some st => cgecaAux b others fuel (qs ++ st.2) st.1

/-- Modelled from the spec: the activePlayers-aware checkGameEndCondition that
the four-player App imports from utils/boardUtils (that revision is absent
from the provided sources). Spec section 4.2: run a single BFS from the
reference (first active) player's pieces through unblocked empty cells and
report the game over unless the search touches a cell occupied by another
active player. -/
def checkGameEndConditionActive (b : Board) (activePlayers : List Player) : Bool :=
  match activePlayers with
  | [] => true
  | ref :: others =>
      let seeds := piecesOf b ref
      cgecaAux b others 200 seeds seeds

/-- Game phases, from types.ts. -/
inductive GamePhase where
  | PLACEMENT
  | ACTION_SELECT
  | ACTION_MOVE
  | ACTION_WALL
  | GAME_OVER
deriving DecidableEq, Repr

/-- Game modes, from types.ts. -/
inductive GameMode where
  | PVP
  | PVAI
deriving DecidableEq, Repr

/-- The winner field Player | DRAW | null of GameState. -/
inductive Winner where
  | undecided
  | won (p : Player)
  | draw
deriving DecidableEq, Repr

/-- TURN_TIME_LIMIT = 90 from types.ts. -/
def TURN_TIME_LIMIT : Nat := 90

/-- GameState from types.ts (four-player revision); the showRules flag is
pure UI and omitted. -/
structure GameState where
  board : Board
  currentPlayer : Player
  activePlayers : List Player
  phase : GamePhase
  turnTimer : Nat
  winner : Winner
  scores : Player → Option Nat
  placementQueue : List Player
  selectedPiece : Option Coordinate
  validMoves : List Coordinate
  movedTo : Option Coordinate
  gameMode : Option GameMode
  isAiThinking : Bool

/-- switchPlayer from App.tsx: the next player in the active rotation (the
current player is always a member of the rotation at every call site). -/
def switchPlayer (current : Player) (activePlayers : List Player) : Player :=
  let idx := activePlayers.findIdx (fun p => p == current)
  activePlayers.getD ((idx + 1) % activePlayers.length) current

/-- The tie-break fold of endTurn over the max-score candidates: running
state (maxTerritory, territoryWinner, tie), started at (-1, null, false). -/
def territoryFold (b : Board) (candidates : List Player) : Int × Option Player × Bool :=
  candidates.foldl (fun st p =>
    let t : Int := calculateLargestTerritory b p
    if t > st.1 then (t, some p, false)
    else if t = st.1 then (st.1, st.2.1, true)
    else st) (-1, none, false)

/-- The maximum-score scan of endTurn: maxScore starts at -1 and is raised by
every strictly larger active player's score (missing scores read as 0). -/
def maxScoreOf (scores : Player → Option Nat) (activePlayers : List Player) : Int :=
  activePlayers.foldl (fun m p => if ((scores p).getD 0 : Int) > m then ((scores p).getD 0 : Int) else m) (-1)

/-- The candidate list of endTurn: active players whose score equals maxScore. -/
def candidatesOf (scores : Player → Option Nat) (activePlayers : List Player) : List Player :=
  activePlayers.filter (fun p => ((scores p).getD 0 : Int) == maxScoreOf scores activePlayers)

/-- The winner computation of the game-over branch of endTurn in App.tsx
(four-player revision), factored out verbatim: a unique maximum-score
candidate wins outright, otherwise the tie-break fold decides. -/
def resolveWinner (b : Board) (scores : Player → Option Nat) (activePlayers : List Player) : Winner :=
  let candidates := candidatesOf scores activePlayers
  if candidates.length = 1 then Winner.won (candidates.getD 0 Player.RED)
  else
    let r := territoryFold b candidates
    if r.2.2 then Winner.draw
    else match r.2.1 with
      | some p => Winner.won p
      | none => Winner.undecided

/-- endTurn from App.tsx (four-player revision): check the end condition; on
game over compute scores and resolve the winner and enter GAME_OVER,
otherwise rotate the current player, reset the timer and clear the
selection state. -/
def endTurn (s : GameState) : GameState :=
  if checkGameEndConditionActive s.board s.activePlayers then
    let scores := calculateScoresActive s.board s.activePlayers
    { s with phase := GamePhase.GAME_OVER
             winner := resolveWinner s.board scores s.activePlayers
             scores := scores
             isAiThinking := false }
  else
    { s with currentPlayer := switchPlayer s.currentPlayer s.activePlayers
             phase := GamePhase.ACTION_SELECT
             turnTimer := TURN_TIME_LIMIT
             selectedPiece := none
             validMoves := []
             movedTo := none
             isAiThinking := false }

/-- handleRandomWallPlacement from App.tsx (four-player revision), with the
two Math.random draws made explicit: pieceChoice indexes the random piece
(taken modulo the piece count) and sideOrder is the shuffled side list. On
game over this handler sets winner to null, unlike endTurn. -/
def handleRandomWallPlacement (s : GameState) (pieceChoice : Nat) (sideOrder : List Side) :
    GameState :=
  let pxy : Option Coordinate :=
    if s.phase = GamePhase.ACTION_WALL ∧ s.movedTo.isSome then s.movedTo
    else
      let pieces := piecesOf s.board s.currentPlayer
      if pieces.length > 0 then some (pieces.getD (pieceChoice % pieces.length) ⟨0, 0⟩)
      else none
  match pxy with
  | none =>
      { s with currentPlayer := switchPlayer s.currentPlayer s.activePlayers
               phase := GamePhase.ACTION_SELECT
               turnTimer := TURN_TIME_LIMIT
               selectedPiece := none
               validMoves := []
               movedTo := none
               isAiThinking := false }
  | some piece =>
      let newBoard :=
        match sideOrder.find? (fun side => ((cellAt s.board piece).walls.get side).isNone) with
        | some side => placeWall s.board piece.x piece.y side s.currentPlayer
        | none => s.board
      if checkGameEndConditionActive newBoard s.activePlayers then
        { s with board := newBoard
                 phase := GamePhase.GAME_OVER
                 winner := Winner.undecided
                 scores := calculateScoresActive newBoard s.activePlayers
                 isAiThinking := false }
      else
        { s with board := newBoard
                 currentPlayer := switchPlayer s.currentPlayer s.activePlayers
                 phase := GamePhase.ACTION_SELECT
                 turnTimer := TURN_TIME_LIMIT
                 selectedPiece := none
                 validMoves := []
                 movedTo := none
                 isAiThinking := false }

/-- handleWallClick from App.tsx (four-player revision): reject unless the
phase is ACTION_WALL, a moved-to cell exists, it is not the AI's turn in PVAI
mode, and the clicked coordinate equals the moved-to cell; then place the
wall (the clicked side's current wall state is never inspected) and run
endTurn on the updated state. -/
def handleWallClick (s : GameState) (x y : Int) (side : Side) : GameState :=
  if s.phase ≠ GamePhase.ACTION_WALL then s
  else match s.movedTo with
    | none => s
    | some m =>
        if s.gameMode = some GameMode.PVAI ∧ s.currentPlayer = Player.BLUE then s
        else if m.x ≠ x ∨ m.y ≠ y then s
        else endTurn { s with board := placeWall s.board x y side s.currentPlayer }

/-- deepCloneBoard from aiUtils: a structural copy of every cell and wall
record; on values it is the identity. -/
def deepCloneBoard (b : Board) : Board :=
  fun y x =>
    { occupant := (b y x).occupant
      walls := { top := (b y x).walls.top
                 right := (b y x).walls.right
                 bottom := (b y x).walls.bottom
                 left := (b y x).walls.left } }

/-- Set board[c.y][c.x].occupant, the in-place piece move primitive of the
AI search. -/
def setOccupant (b : Board) (c : Coordinate) (o : Option Player) : Board :=
  setCellAt b c (fun cd => { cd with occupant := o })

/-- evaluateBoardState from aiUtils: reachable area of the AI player minus
the opponent's reachable area weighted by AGGRESSION_FACTOR = 1.2; the JS
floating-point score is embedded as an exact rational. -/
def evaluateBoardState (b : Board) (aiPlayer opponent : Player) : ℚ :=
  ((getReachableArea b aiPlayer).length : ℚ)
    - ((getReachableArea b opponent).length : ℚ) * (6 / 5 : ℚ)

/-- An AI move candidate (from, to, wallSide, score), from aiUtils. -/
structure AiMove where
  fromC : Coordinate
  toC : Coordinate
  wallSide : Side
  score : ℚ
deriving DecidableEq, Repr

/-- The running state of the AI search loops: the working board, the best
move so far, the best perturbed score so far (none standing for the initial
-Infinity) and the remaining stream of Math.random draws. -/
structure AiSearchState where
  board : Board
  best : Option AiMove
  maxScore : Option ℚ
  rands : List ℚ

/-- The wall side order ['top', 'right', 'bottom', 'left'] tried by the AI. -/
def possibleWalls : List Side := [Side.top, Side.right, Side.bottom, Side.left]

/-- The innermost loop body of calculateBestMove: skip walled sides, apply
the wall, evaluate, perturb with the next random draw, keep the best, and
remove the wall again. -/
def aiTrySide (aiPlayer opponent : Player) (piece move : Coordinate)
    (st : AiSearchState) (side : Side) : AiSearchState :=
  if ((cellAt st.board move).walls.get side).isSome then st
  else
    let b2 := applyWall st.board move.x move.y side aiPlayer
    let score := evaluateBoardState b2 aiPlayer opponent
    let randomBias := (st.rands.headD 0) * (1 / 2 : ℚ)
    let keep :=
      match st.maxScore with
      | none => true
      | some m => score + randomBias > m
    let st' :=
      if keep then
        { st with best := some { fromC := piece, toC := move, wallSide := side
                                 score := score + randomBias }
                  maxScore := some (score + randomBias) }
      else st
    { st' with board := removeWall b2 move.x move.y side
               rands := st.rands.tail }

/-- The per-destination loop body of calculateBestMove: move the piece, try
every wall side, then move the piece back. -/
def aiTryMove (aiPlayer opponent : Player) (piece : Coordinate)
    (st : AiSearchState) (move : Coordinate) : AiSearchState :=
  let b1 := setOccupant (setOccupant st.board piece none) move (some aiPlayer)
  let st2 := possibleWalls.foldl (aiTrySide aiPlayer opponent piece move) { st with board := b1 }
  { st2 with board := setOccupant (setOccupant st2.board move none) piece (some aiPlayer) }

/-- The per-piece loop body of calculateBestMove: enumerate the piece's valid
moves on the current working board. -/
def aiTryPiece (aiPlayer opponent : Player) (st : AiSearchState) (piece : Coordinate) :
    AiSearchState :=
  (getValidMoves st.board piece).foldl (aiTryMove aiPlayer opponent piece) st

/-- calculateBestMove from aiUtils: deep-clone the board, enumerate every
(piece, destination, open wall side) triple with in-place mutation and undo,
and return the best perturbed-score move. The Math.random draws are passed
as an explicit stream, and the final working board is returned alongside the
result so that the mutation discipline is visible to the theorems. -/
def calculateBestMove (originalBoard : Board) (aiPlayer opponent : Player) (rands : List ℚ) :
    Option AiMove × Board :=
  let board := deepCloneBoard originalBoard
  let aiPieces := piecesOf board aiPlayer
  let final := aiPieces.foldl (aiTryPiece aiPlayer opponent)
    { board := board, best := none, maxScore := none, rands := rands }
  (final.best, final.board)

/-- Build a board by placing a list of pieces and then a list of walls (each
wall through placeWall, so walls are mirrored as in the game). -/
def mkBoard (pieces : List (Coordinate × Player)) (walls : List (Int × Int × Side)) : Board :=
  walls.foldl (fun b w => placeWall b w.1 w.2.1 w.2.2 Player.RED)
    (pieces.foldl (fun b pr => setOccupant b pr.1 (some pr.2)) createInitialBoard)

/-- Scenario board: RED confined to 20 reachable cells, BLUE to 15. -/
def scenarioBoard1 : Board :=
  mkBoard [(⟨0, 0⟩, Player.RED), (⟨3, 3⟩, Player.BLUE)]
    [(0, 2, Side.bottom), (1, 2, Side.bottom), (2, 2, Side.bottom), (3, 2, Side.bottom),
     (4, 2, Side.bottom), (5, 2, Side.bottom), (6, 2, Side.bottom),
     (6, 2, Side.left), (6, 2, Side.top),
     (2, 3, Side.right), (2, 4, Side.right), (2, 5, Side.right), (2, 6, Side.right),
     (6, 6, Side.top), (6, 6, Side.left)]

/-- Scenario board: both players reach 18 cells, split into components of
sizes 10 and 8 each, so both largest territories are 10. -/
def scenarioBoard2 : Board :=
  mkBoard [(⟨0, 0⟩, Player.RED), (⟨5, 0⟩, Player.RED),
           (⟨0, 2⟩, Player.BLUE), (⟨0, 4⟩, Player.BLUE)]
    [(4, 0, Side.right), (4, 1, Side.right), (4, 2, Side.right), (4, 3, Side.right),
     (0, 1, Side.bottom), (1, 1, Side.bottom), (2, 1, Side.bottom), (3, 1, Side.bottom),
     (4, 1, Side.bottom),
     (0, 3, Side.bottom), (1, 3, Side.bottom), (2, 3, Side.bottom), (3, 3, Side.bottom),
     (4, 3, Side.bottom), (5, 3, Side.bottom), (6, 3, Side.bottom),
     (1, 4, Side.bottom), (2, 4, Side.bottom), (3, 4, Side.bottom), (4, 4, Side.bottom),
     (5, 4, Side.bottom), (6, 4, Side.bottom),
     (0, 5, Side.right), (0, 5, Side.bottom)]

/-- Scenario board: both players reach 18 cells; RED's largest component has
12 cells, BLUE's largest has 9. -/
def scenarioBoard3 : Board :=
  mkBoard [(⟨0, 0⟩, Player.RED), (⟨6, 0⟩, Player.RED),
           (⟨0, 2⟩, Player.BLUE), (⟨3, 2⟩, Player.BLUE)]
    [(5, 0, Side.right), (5, 1, Side.right),
     (0, 1, Side.bottom), (1, 1, Side.bottom), (2, 1, Side.bottom), (3, 1, Side.bottom),
     (4, 1, Side.bottom), (5, 1, Side.bottom),
     (6, 2, Side.left), (6, 3, Side.left), (6, 4, Side.left), (6, 5, Side.left),
     (6, 5, Side.bottom),
     (2, 2, Side.right), (2, 3, Side.right), (2, 4, Side.right),
     (0, 4, Side.bottom), (1, 4, Side.bottom), (2, 4, Side.bottom), (3, 4, Side.bottom),
     (4, 4, Side.bottom), (5, 4, Side.bottom)]

/-- Board for the game-end claim: RED and BLUE each sealed into their own
corner, GREEN and YELLOW adjacent with no wall between them. -/
def cexBoardC1 : Board :=
  mkBoard [(⟨0, 0⟩, Player.RED), (⟨6, 6⟩, Player.BLUE),
           (⟨2, 2⟩, Player.GREEN), (⟨3, 2⟩, Player.YELLOW)]
    [(0, 0, Side.right), (0, 0, Side.bottom), (6, 6, Side.top), (6, 6, Side.left)]

/-- Board for the largest-territory claim: two RED pieces at (0,0) and (2,0)
sharing the single empty cell (1,0), with the three-cell strip walled off
from the rest of the board. -/
def cexBoardC7 : Board :=
  mkBoard [(⟨0, 0⟩, Player.RED), (⟨2, 0⟩, Player.RED)]
    [(0, 0, Side.bottom), (1, 0, Side.bottom), (2, 0, Side.bottom), (2, 0, Side.right)]

/-- Board for the wall round-trip claim: a RED wall already sits on the top
edge of (0,0). -/
def cexBoardC9 : Board :=
  mkBoard [] [(0, 0, Side.top)]

/-- Board for the wall-phase claim: a BLUE wall already sits on the left edge
of the moved-to cell (3,3), with RED standing there. -/
def cexBoardC3 : Board :=
  placeWall (mkBoard [(⟨3, 3⟩, Player.RED), (⟨5, 5⟩, Player.BLUE)] []) 3 3 Side.left Player.BLUE

/-- Game state for the wall-phase claim: RED is in ACTION_WALL on (3,3). -/
def cexStateC3 : GameState :=
  { board := cexBoardC3
    currentPlayer := Player.RED
    activePlayers := [Player.RED, Player.BLUE]
    phase := GamePhase.ACTION_WALL
    turnTimer := 42
    winner := Winner.undecided
    scores := fun _ => none
    placementQueue := []
    selectedPiece := none
    validMoves := []
    movedTo := some ⟨3, 3⟩
    gameMode := some GameMode.PVP
    isAiThinking := false }

/-- Board for the timeout claim: RED sealed behind walls on all four sides of
(0,0), BLUE free at (3,3), so the game is over and BLUE has the higher
score. -/
def cexBoardC4 : Board :=
  mkBoard [(⟨0, 0⟩, Player.RED), (⟨3, 3⟩, Player.BLUE)]
    [(0, 0, Side.top), (0, 0, Side.right), (0, 0, Side.bottom), (0, 0, Side.left)]

/-- Game state for the timeout claim: the timer expires while RED is in
ACTION_WALL on the fully walled cell (0,0). -/
def cexStateC4 : GameState :=
  { board := cexBoardC4
    currentPlayer := Player.RED
    activePlayers := [Player.RED, Player.BLUE]
    phase := GamePhase.ACTION_WALL
    turnTimer := 0
    winner := Winner.undecided
    scores := fun _ => none
    placementQueue := []
    selectedPiece := none
    validMoves := []
    movedTo := some ⟨0, 0⟩
    gameMode := some GameMode.PVP
    isAiThinking := false }

/-- The coordinate of the neighbour across a given side of cell (x, y). -/
def nbrCoord (x y : Int) : Side → Coordinate
  | Side.top => ⟨x, y - 1⟩
  | Side.bottom => ⟨x, y + 1⟩
  | Side.left => ⟨x - 1, y⟩
  | Side.right => ⟨x + 1, y⟩

/-- The side of the neighbour that faces back across the shared edge. -/
def oppositeSide : Side → Side
  | Side.top => Side.bottom
  | Side.bottom => Side.top
  | Side.left => Side.right
  | Side.right => Side.left

/-- Read a cell by a pair of natural indices (board[y][x]). -/
def cellAtN (b : Board) (x y : Nat) : CellData :=
  cellAt b ⟨(x : Int), (y : Int)⟩

/-- The wall-mirroring invariant: on every interior edge the two facing wall
slots agree (both absent, or both present with the same owner). -/
def Mirror (b : Board) : Prop :=
  (∀ x : Nat, x < 6 → ∀ y : Nat, y < 7 →
    (cellAtN b x y).walls.get Side.right = (cellAtN b (x + 1) y).walls.get Side.left)
  ∧ (∀ x : Nat, x < 7 → ∀ y : Nat, y < 6 →
    (cellAtN b x y).walls.get Side.bottom = (cellAtN b x (y + 1)).walls.get Side.top)

instance (b : Board) : Decidable (Mirror b) := by
  unfold Mirror; infer_instance

/-- Boards reachable from the initial empty board by in-bounds wall-placement
operations (placeWall, applyWall, removeWall). -/
inductive WallReachable : Board → Prop
  | init : WallReachable createInitialBoard
  | place (b : Board) (x y : Int) (side : Side) (p : Player) :
      WallReachable b → isValidCoordinate ⟨x, y⟩ → WallReachable (placeWall b x y side p)
  | apply (b : Board) (x y : Int) (side : Side) (p : Player) :
      WallReachable b → isValidCoordinate ⟨x, y⟩ → WallReachable (applyWall b x y side p)
  | remove (b : Board) (x y : Int) (side : Side) :
      WallReachable b → isValidCoordinate ⟨x, y⟩ → WallReachable (removeWall b x y side)

/-- One legal flood step: the target is an orthogonal neighbour of the
source, in bounds, not wall-separated from the source, and unoccupied. -/
def stepOk (b : Board) (a c : Coordinate) : Prop :=
  (∃ d ∈ directions, c = ⟨a.x + d.x, a.y + d.y⟩)
  ∧ isValidCoordinate c
  ∧ isBlocked a (cellAt b a) c = false
  ∧ (cellAt b c).occupant = none

/-- Cells connected to a player's pieces through legal flood steps (the
mathematical description of the reachable area). -/
inductive GraReach (b : Board) (player : Player) : Coordinate → Prop
  | seed (c : Coordinate) : c ∈ piecesOf b player → GraReach b player c
  | step (a c : Coordinate) : GraReach b player a → stepOk b a c → GraReach b player c

/-- Coordinates reachable from the start in zero, one or two legal steps,
each intermediate cell itself in bounds, unblocked and unoccupied. -/
def reachWithin2 (b : Board) (start c : Coordinate) : Prop :=
  c = start ∨ stepOk b start c ∨ ∃ m, stepOk b start m ∧ stepOk b m c

/-- The common shape of placeWall, applyWall and removeWall: write a wall
value on one side of a cell and mirror it onto the neighbour when the
corresponding bounds guard holds. -/
def wallWrite (b : Board) (x y : Int) (side : Side) (v : Option Player) : Board :=
  let b1 := setCellAt b ⟨x, y⟩ (fun cd => { cd with walls := cd.walls.put side v })
  let b2 := if side = Side.top ∧ y > 0 then
      setCellAt b1 ⟨x, y - 1⟩ (fun cd => { cd with walls := { cd.walls with bottom := v } })
    else b1
  let b3 := if side = Side.bottom ∧ y < BOARD_SIZE - 1 then
      setCellAt b2 ⟨x, y + 1⟩ (fun cd => { cd with walls := { cd.walls with top := v } })
    else b2
  let b4 := if side = Side.left ∧ x > 0 then
      setCellAt b3 ⟨x - 1, y⟩ (fun cd => { cd with walls := { cd.walls with right := v } })
    else b3
  if side = Side.right ∧ x < BOARD_SIZE - 1 then
    setCellAt b4 ⟨x + 1, y⟩ (fun cd => { cd with walls := { cd.walls with left := v } })
  else b4

theorem applyWall_eq_placeWall : applyWall = placeWall := rfl

theorem placeWall_eq_wallWrite (b : Board) (x y : Int) (side : Side) (p : Player) :
    placeWall b x y side p = wallWrite b x y side (some p) := rfl

theorem removeWall_eq_wallWrite (b : Board) (x y : Int) (side : Side) :
    removeWall b x y side = wallWrite b x y side none := rfl

theorem cellAt_setCellAt_same (b : Board) (c : Coordinate) (f : CellData → CellData)
    (h : isValidCoordinate c) : cellAt (setCellAt b c f) c = f (cellAt b c) := by
  simp [cellAt, setCellAt, h]

theorem cellAt_setCellAt_ne (b : Board) (c c' : Coordinate) (f : CellData → CellData)
    (hne : c ≠ c') : cellAt (setCellAt b c f) c' = cellAt b c' := by
  by_cases h : isValidCoordinate c
  · by_cases h' : isValidCoordinate c'
    · have hxy : c.x.toNat ≠ c'.x.toNat ∨ c.y.toNat ≠ c'.y.toNat := by
        by_contra hcon
        push_neg at hcon
        apply hne
        obtain ⟨hx0, _, hy0, _⟩ := h
        obtain ⟨hx0', _, hy0', _⟩ := h'
        cases c; cases c'
        simp only [Coordinate.mk.injEq]
        simp only [BOARD_SIZE] at *
        constructor <;> omega
      simp only [cellAt, setCellAt, h, h', dif_pos]
      rw [if_neg]
      rintro ⟨hy, hx⟩
      simp only [coordYFin, coordXFin, Fin.mk.injEq] at hy hx
      rcases hxy with h1 | h1
      · exact h1 hx.symm
      · exact h1 hy.symm
    · simp [cellAt, setCellAt, h, h']
  · simp [setCellAt, h]

theorem setCellAt_invalid (b : Board) (c : Coordinate) (f : CellData → CellData)
    (h : ¬ isValidCoordinate c) : setCellAt b c f = b := by
  simp [setCellAt, h]

theorem WallState.put_get_same (w : WallState) (s : Side) (v : Option Player) :
    (w.put s v).get s = v := by
  cases s <;> rfl

theorem WallState.put_get_ne (w : WallState) (s s' : Side) (v : Option Player)
    (h : s ≠ s') : (w.put s v).get s' = w.get s' := by
  cases s <;> cases s' <;> first | rfl | exact absurd rfl h

theorem board_ext (b b' : Board)
    (h : ∀ c : Coordinate, isValidCoordinate c → cellAt b c = cellAt b' c) : b = b' := by
  funext i j
  have hv : isValidCoordinate ⟨(j : Int), (i : Int)⟩ := by
    refine ⟨by positivity, ?_, by positivity, ?_⟩ <;>
      · simp only [BOARD_SIZE]
        exact_mod_cast Fin.isLt _
  have := h ⟨(j : Int), (i : Int)⟩ hv
  simpa only [cellAt, dif_pos hv, coordYFin, coordXFin, Int.toNat_natCast, Fin.eta]
    using this

theorem cellAt_two_sets (b : Board) (n1 n2 : Coordinate) (f1 f2 : CellData → CellData)
    (h1 : isValidCoordinate n1) (h2 : isValidCoordinate n2) (hne : n1 ≠ n2) (c : Coordinate) :
    cellAt (setCellAt (setCellAt b n1 f1) n2 f2) c =
      if c = n1 then f1 (cellAt b c)
      else if c = n2 then f2 (cellAt b c)
      else cellAt b c := by
  by_cases hc1 : c = n1
  · subst hc1
    rw [if_pos rfl, cellAt_setCellAt_ne _ _ _ _ (fun h => hne h.symm),
      cellAt_setCellAt_same _ _ _ h1]
  · rw [if_neg hc1]
    by_cases hc2 : c = n2
    · subst hc2
      rw [if_pos rfl, cellAt_setCellAt_same _ _ _ h2,
        cellAt_setCellAt_ne _ _ _ _ (fun h => hc1 h.symm)]
    · rw [if_neg hc2, cellAt_setCellAt_ne _ _ _ _ (fun h => hc2 h.symm),
        cellAt_setCellAt_ne _ _ _ _ (fun h => hc1 h.symm)]

theorem cellAt_wallWrite (b : Board) (x y : Int) (side : Side) (v : Option Player)
    (hv : isValidCoordinate ⟨x, y⟩) (c : Coordinate) :
    cellAt (wallWrite b x y side v) c =
      if c = (⟨x, y⟩ : Coordinate) then
        { cellAt b c with walls := (cellAt b c).walls.put side v }
      else if c = nbrCoord x y side ∧ isValidCoordinate (nbrCoord x y side) then
        { cellAt b c with walls := (cellAt b c).walls.put (oppositeSide side) v }
      else cellAt b c := by
  have hx0 : 0 ≤ x := hv.1
  have hx7 : x < 7 := by
    have h := hv.2.1
    simp only [BOARD_SIZE] at h
    exact h
  have hy0 : 0 ≤ y := hv.2.2.1
  have hy7 : y < 7 := by
    have h := hv.2.2.2
    simp only [BOARD_SIZE] at h
    exact h
  cases side
  case top =>
    simp only [nbrCoord, oppositeSide]
    by_cases hg : y > 0
    · have hnv : isValidCoordinate (⟨x, y - 1⟩ : Coordinate) := by
        simp only [isValidCoordinate, BOARD_SIZE]
        omega
      have hne : (⟨x, y⟩ : Coordinate) ≠ (⟨x, y - 1⟩ : Coordinate) := by
        simp only [ne_eq, Coordinate.mk.injEq, not_and]
        omega
      rw [show wallWrite b x y Side.top v =
          setCellAt (setCellAt b ⟨x, y⟩ (fun cd => { cd with walls := cd.walls.put Side.top v }))
            ⟨x, y - 1⟩ (fun cd => { cd with walls := { cd.walls with bottom := v } })
          from by simp [wallWrite, hg]]
      rw [cellAt_two_sets _ _ _ _ _ hv hnv hne c]
      simp only [hnv, and_true]
      split_ifs <;> rfl
    · have hnv : ¬ isValidCoordinate (⟨x, y - 1⟩ : Coordinate) := by
        simp only [isValidCoordinate, BOARD_SIZE]
        omega
      rw [show wallWrite b x y Side.top v =
          setCellAt b ⟨x, y⟩ (fun cd => { cd with walls := cd.walls.put Side.top v })
          from by simp [wallWrite, hg]]
      simp only [hnv, and_false, if_false]
      by_cases hc : c = (⟨x, y⟩ : Coordinate)
      · subst hc
        rw [if_pos rfl, cellAt_setCellAt_same _ _ _ hv]
      · rw [if_neg hc, cellAt_setCellAt_ne _ _ _ _ (fun h => hc h.symm)]
  case bottom =>
    simp only [nbrCoord, oppositeSide]
    by_cases hg : y < BOARD_SIZE - 1
    · have hnv : isValidCoordinate (⟨x, y + 1⟩ : Coordinate) := by
        simp only [BOARD_SIZE] at hg
        simp only [isValidCoordinate, BOARD_SIZE]
        omega
      have hne : (⟨x, y⟩ : Coordinate) ≠ (⟨x, y + 1⟩ : Coordinate) := by
        simp only [ne_eq, Coordinate.mk.injEq, not_and]
        omega
      rw [show wallWrite b x y Side.bottom v =
          setCellAt (setCellAt b ⟨x, y⟩ (fun cd => { cd with walls := cd.walls.put Side.bottom v }))
            ⟨x, y + 1⟩ (fun cd => { cd with walls := { cd.walls with top := v } })
          from by simp [wallWrite, hg]]
      rw [cellAt_two_sets _ _ _ _ _ hv hnv hne c]
      simp only [hnv, and_true]
      split_ifs <;> rfl
    · have hnv : ¬ isValidCoordinate (⟨x, y + 1⟩ : Coordinate) := by
        simp only [BOARD_SIZE] at hg
        simp only [isValidCoordinate, BOARD_SIZE]
        omega
      rw [show wallWrite b x y Side.bottom v =
          setCellAt b ⟨x, y⟩ (fun cd => { cd with walls := cd.walls.put Side.bottom v })
          from by simp [wallWrite, hg]]
      simp only [hnv, and_false, if_false]
      by_cases hc : c = (⟨x, y⟩ : Coordinate)
      · subst hc
        rw [if_pos rfl, cellAt_setCellAt_same _ _ _ hv]
      · rw [if_neg hc, cellAt_setCellAt_ne _ _ _ _ (fun h => hc h.symm)]
  case left =>
    simp only [nbrCoord, oppositeSide]
    by_cases hg : x > 0
    · have hnv : isValidCoordinate (⟨x - 1, y⟩ : Coordinate) := by
        simp only [isValidCoordinate, BOARD_SIZE]
        omega
      have hne : (⟨x, y⟩ : Coordinate) ≠ (⟨x - 1, y⟩ : Coordinate) := by
        simp only [ne_eq, Coordinate.mk.injEq, not_and]
        omega
      rw [show wallWrite b x y Side.left v =
          setCellAt (setCellAt b ⟨x, y⟩ (fun cd => { cd with walls := cd.walls.put Side.left v }))
            ⟨x - 1, y⟩ (fun cd => { cd with walls := { cd.walls with right := v } })
          from by simp [wallWrite, hg]]
      rw [cellAt_two_sets _ _ _ _ _ hv hnv hne c]
      simp only [hnv, and_true]
      split_ifs <;> rfl
    · have hnv : ¬ isValidCoordinate (⟨x - 1, y⟩ : Coordinate) := by
        simp only [isValidCoordinate, BOARD_SIZE]
        omega
      rw [show wallWrite b x y Side.left v =
          setCellAt b ⟨x, y⟩ (fun cd => { cd with walls := cd.walls.put Side.left v })
          from by simp [wallWrite, hg]]
      simp only [hnv, and_false, if_false]
      by_cases hc : c = (⟨x, y⟩ : Coordinate)
      · subst hc
        rw [if_pos rfl, cellAt_setCellAt_same _ _ _ hv]
      · rw [if_neg hc, cellAt_setCellAt_ne _ _ _ _ (fun h => hc h.symm)]
  case right =>
    simp only [nbrCoord, oppositeSide]
    by_cases hg : x < BOARD_SIZE - 1
    · have hnv : isValidCoordinate (⟨x + 1, y⟩ : Coordinate) := by
        simp only [BOARD_SIZE] at hg
        simp only [isValidCoordinate, BOARD_SIZE]
        omega
      have hne : (⟨x, y⟩ : Coordinate) ≠ (⟨x + 1, y⟩ : Coordinate) := by
        simp only [ne_eq, Coordinate.mk.injEq, not_and]
        omega
      rw [show wallWrite b x y Side.right v =
          setCellAt (setCellAt b ⟨x, y⟩ (fun cd => { cd with walls := cd.walls.put Side.right v }))
            ⟨x + 1, y⟩ (fun cd => { cd with walls := { cd.walls with left := v } })
          from by simp [wallWrite, hg]]
      rw [cellAt_two_sets _ _ _ _ _ hv hnv hne c]
      simp only [hnv, and_true]
      split_ifs <;> rfl
    · have hnv : ¬ isValidCoordinate (⟨x + 1, y⟩ : Coordinate) := by
        simp only [BOARD_SIZE] at hg
        simp only [isValidCoordinate, BOARD_SIZE]
        omega
      rw [show wallWrite b x y Side.right v =
          setCellAt b ⟨x, y⟩ (fun cd => { cd with walls := cd.walls.put Side.right v })
          from by simp [wallWrite, hg]]
      simp only [hnv, and_false, if_false]
      by_cases hc : c = (⟨x, y⟩ : Coordinate)
      · subst hc
        rw [if_pos rfl, cellAt_setCellAt_same _ _ _ hv]
      · rw [if_neg hc, cellAt_setCellAt_ne _ _ _ _ (fun h => hc h.symm)]

theorem nbrCoord_ne (x y : Int) (side : Side) : (⟨x, y⟩ : Coordinate) ≠ nbrCoord x y side := by
  cases side <;>
    · simp only [nbrCoord, ne_eq, Coordinate.mk.injEq, not_and]
      omega

theorem occupant_wallWrite (b : Board) (x y : Int) (side : Side) (v : Option Player)
    (hv : isValidCoordinate ⟨x, y⟩) (c : Coordinate) :
    (cellAt (wallWrite b x y side v) c).occupant = (cellAt b c).occupant := by
  rw [cellAt_wallWrite b x y side v hv c]
  split_ifs <;> rfl

theorem piecesOf_wallWrite (b : Board) (x y : Int) (side : Side) (v : Option Player)
    (hv : isValidCoordinate ⟨x, y⟩) (p : Player) :
    piecesOf (wallWrite b x y side v) p = piecesOf b p := by
  unfold piecesOf
  apply List.filter_congr
  intro c _
  rw [occupant_wallWrite b x y side v hv c]

theorem getWall_wallWrite (b : Board) (x y : Int) (side : Side) (v : Option Player)
    (hv : isValidCoordinate ⟨x, y⟩) (c : Coordinate) (s : Side) :
    (cellAt (wallWrite b x y side v) c).walls.get s =
      if c = (⟨x, y⟩ : Coordinate) ∧ s = side then v
      else if c = nbrCoord x y side ∧ isValidCoordinate (nbrCoord x y side)
          ∧ s = oppositeSide side then v
      else (cellAt b c).walls.get s := by
  have hne := nbrCoord_ne x y side
  rw [cellAt_wallWrite b x y side v hv c]
  by_cases hc : c = (⟨x, y⟩ : Coordinate)
  · subst hc
    rw [if_pos rfl]
    by_cases hs : s = side
    · subst hs
      simp only [and_self, if_pos rfl]
      exact WallState.put_get_same _ _ _
    · rw [if_neg (fun h => hs h.2), if_neg (fun h => hne h.1)]
      exact WallState.put_get_ne _ _ _ _ (fun h => hs h.symm)
  · rw [if_neg hc,
      if_neg (show ¬(c = (⟨x, y⟩ : Coordinate) ∧ s = side) from fun h => hc h.1)]
    by_cases hcn : c = nbrCoord x y side ∧ isValidCoordinate (nbrCoord x y side)
    · rw [if_pos hcn]
      by_cases hs : s = oppositeSide side
      · subst hs
        rw [if_pos ⟨hcn.1, hcn.2, rfl⟩]
        exact WallState.put_get_same _ _ _
      · rw [if_neg (show ¬(c = nbrCoord x y side ∧ isValidCoordinate (nbrCoord x y side)
            ∧ s = oppositeSide side) from fun h => hs h.2.2)]
        exact WallState.put_get_ne _ _ _ _ (fun h => hs h.symm)
    · rw [if_neg hcn,
        if_neg (show ¬(c = nbrCoord x y side ∧ isValidCoordinate (nbrCoord x y side)
          ∧ s = oppositeSide side) from fun h => hcn ⟨h.1, h.2.1⟩)]

theorem getWall_wallWrite_or (b : Board) (x y : Int) (side : Side) (v : Option Player)
    (hv : isValidCoordinate ⟨x, y⟩) (c : Coordinate) (s : Side) :
    (cellAt (wallWrite b x y side v) c).walls.get s = (cellAt b c).walls.get s
    ∨ (cellAt (wallWrite b x y side v) c).walls.get s = v := by
  rw [getWall_wallWrite b x y side v hv c s]
  split_ifs <;> simp

theorem WallState.ext_get (w w' : WallState) (h : ∀ s, w.get s = w'.get s) : w = w' := by
  have ht := h Side.top
  have hr := h Side.right
  have hb := h Side.bottom
  have hl := h Side.left
  cases w
  cases w'
  simp only [WallState.get] at ht hr hb hl
  simp [ht, hr, hb, hl]

theorem CellData.ext_parts (c c' : CellData) (ho : c.occupant = c'.occupant)
    (hw : c.walls = c'.walls) : c = c' := by
  cases c
  cases c'
  simp_all

theorem emptyCell_get (s : Side) : emptyCell.walls.get s = none := by
  cases s <;> rfl

theorem removeWall_applyWall_of_open (b : Board) (x y : Int) (side : Side) (p : Player)
    (hv : isValidCoordinate ⟨x, y⟩)
    (hopen : (cellAt b ⟨x, y⟩).walls.get side = none)
    (hnbr : (cellAt b (nbrCoord x y side)).walls.get (oppositeSide side) = none) :
    removeWall (applyWall b x y side p) x y side = b := by
  rw [applyWall_eq_placeWall, placeWall_eq_wallWrite, removeWall_eq_wallWrite]
  apply board_ext
  intro c _
  apply CellData.ext_parts
  · rw [occupant_wallWrite _ x y side none hv c, occupant_wallWrite b x y side (some p) hv c]
  · apply WallState.ext_get
    intro s
    rw [getWall_wallWrite _ x y side none hv c s]
    split_ifs with h1 h2
    · rw [h1.1, h1.2, hopen]
    · rw [h2.1, h2.2.2, hnbr]
    · rw [getWall_wallWrite b x y side (some p) hv c s, if_neg h1, if_neg h2]

theorem mirror_wallWrite (b : Board) (x y : Int) (side : Side) (v : Option Player)
    (hv : isValidCoordinate ⟨x, y⟩) (hm : Mirror b) : Mirror (wallWrite b x y side v) := by
  have hx0 : 0 ≤ x := hv.1
  have hx7 : x < 7 := by
    have h := hv.2.1
    simp only [BOARD_SIZE] at h
    exact h
  have hy0 : 0 ≤ y := hv.2.2.1
  have hy7 : y < 7 := by
    have h := hv.2.2.2
    simp only [BOARD_SIZE] at h
    exact h
  constructor
  · intro a ha cc hc
    simp only [cellAtN]
    rw [getWall_wallWrite b x y side v hv _ Side.right,
        getWall_wallWrite b x y side v hv _ Side.left]
    cases side
    case top =>
      rw [if_neg (fun h => Side.noConfusion h.2),
          if_neg (fun h => Side.noConfusion h.2.2),
          if_neg (fun h => Side.noConfusion h.2),
          if_neg (fun h => Side.noConfusion h.2.2)]
      exact (by simpa only [cellAtN] using hm.1 a ha cc hc)
    case bottom =>
      rw [if_neg (fun h => Side.noConfusion h.2),
          if_neg (fun h => Side.noConfusion h.2.2),
          if_neg (fun h => Side.noConfusion h.2),
          if_neg (fun h => Side.noConfusion h.2.2)]
      exact (by simpa only [cellAtN] using hm.1 a ha cc hc)
    case right =>
      by_cases hL : (⟨(a : Int), (cc : Int)⟩ : Coordinate) = ⟨x, y⟩
      · have hax : (a : Int) = x := congrArg Coordinate.x hL
        have hcy : (cc : Int) = y := congrArg Coordinate.y hL
        have hR : (⟨((a + 1 : Nat) : Int), (cc : Int)⟩ : Coordinate) = nbrCoord x y Side.right := by
          simp only [nbrCoord, Coordinate.mk.injEq]
          constructor
          · push_cast
            omega
          · exact hcy
        have hval : isValidCoordinate (nbrCoord x y Side.right) := by
          simp only [nbrCoord, isValidCoordinate, BOARD_SIZE]
          omega
        rw [if_pos ⟨hL, rfl⟩, if_neg (fun h => Side.noConfusion h.2),
          if_pos ⟨hR, hval, rfl⟩]
      · rw [if_neg (fun h => hL h.1),
          if_neg (fun h => Side.noConfusion h.2.2),
          if_neg (fun h => Side.noConfusion h.2),
          if_neg (show ¬((⟨((a + 1 : Nat) : Int), (cc : Int)⟩ : Coordinate) = nbrCoord x y Side.right
              ∧ isValidCoordinate (nbrCoord x y Side.right)
              ∧ Side.left = oppositeSide Side.right) from
            fun h => hL (by
              have h1 := congrArg Coordinate.x h.1
              have h2 := congrArg Coordinate.y h.1
              simp only [nbrCoord] at h1 h2
              push_cast at h1
              simp only [Coordinate.mk.injEq]
              constructor <;> omega))]
        exact (by simpa only [cellAtN] using hm.1 a ha cc hc)
    case left =>
      by_cases hR : (⟨((a + 1 : Nat) : Int), (cc : Int)⟩ : Coordinate) = ⟨x, y⟩
      · have hax : ((a + 1 : Nat) : Int) = x := congrArg Coordinate.x hR
        have hcy : (cc : Int) = y := congrArg Coordinate.y hR
        push_cast at hax
        have hL2 : (⟨(a : Int), (cc : Int)⟩ : Coordinate) = nbrCoord x y Side.left := by
          simp only [nbrCoord, Coordinate.mk.injEq]
          constructor <;> omega
        have hval : isValidCoordinate (nbrCoord x y Side.left) := by
          simp only [nbrCoord, isValidCoordinate, BOARD_SIZE]
          omega
        rw [if_neg (fun h => Side.noConfusion h.2), if_pos ⟨hL2, hval, rfl⟩,
          if_pos ⟨hR, rfl⟩]
      · rw [if_neg (fun h => Side.noConfusion h.2),
          if_neg (show ¬((⟨(a : Int), (cc : Int)⟩ : Coordinate) = nbrCoord x y Side.left
              ∧ isValidCoordinate (nbrCoord x y Side.left)
              ∧ Side.right = oppositeSide Side.left) from
            fun h => hR (by
              have h1 := congrArg Coordinate.x h.1
              have h2 := congrArg Coordinate.y h.1
              simp only [nbrCoord] at h1 h2
              simp only [Coordinate.mk.injEq]
              push_cast
              constructor <;> omega)),
          if_neg (fun h => hR h.1),
          if_neg (fun h => Side.noConfusion h.2.2)]
        exact (by simpa only [cellAtN] using hm.1 a ha cc hc)
  · intro a ha cc hc
    simp only [cellAtN]
    rw [getWall_wallWrite b x y side v hv _ Side.bottom,
        getWall_wallWrite b x y side v hv _ Side.top]
    cases side
    case left =>
      rw [if_neg (fun h => Side.noConfusion h.2),
          if_neg (fun h => Side.noConfusion h.2.2),
          if_neg (fun h => Side.noConfusion h.2),
          if_neg (fun h => Side.noConfusion h.2.2)]
      exact (by simpa only [cellAtN] using hm.2 a ha cc hc)
    case right =>
      rw [if_neg (fun h => Side.noConfusion h.2),
          if_neg (fun h => Side.noConfusion h.2.2),
          if_neg (fun h => Side.noConfusion h.2),
          if_neg (fun h => Side.noConfusion h.2.2)]
      exact (by simpa only [cellAtN] using hm.2 a ha cc hc)
    case bottom =>
      by_cases hL : (⟨(a : Int), (cc : Int)⟩ : Coordinate) = ⟨x, y⟩
      · have hax : (a : Int) = x := congrArg Coordinate.x hL
        have hcy : (cc : Int) = y := congrArg Coordinate.y hL
        have hR : (⟨(a : Int), ((cc + 1 : Nat) : Int)⟩ : Coordinate) = nbrCoord x y Side.bottom := by
          simp only [nbrCoord, Coordinate.mk.injEq]
          constructor
          · exact hax
          · push_cast
            omega
        have hval : isValidCoordinate (nbrCoord x y Side.bottom) := by
          simp only [nbrCoord, isValidCoordinate, BOARD_SIZE]
          omega
        rw [if_pos ⟨hL, rfl⟩, if_neg (fun h => Side.noConfusion h.2),
          if_pos ⟨hR, hval, rfl⟩]
      · rw [if_neg (fun h => hL h.1),
          if_neg (fun h => Side.noConfusion h.2.2),
          if_neg (fun h => Side.noConfusion h.2),
          if_neg (show ¬((⟨(a : Int), ((cc + 1 : Nat) : Int)⟩ : Coordinate) = nbrCoord x y Side.bottom
              ∧ isValidCoordinate (nbrCoord x y Side.bottom)
              ∧ Side.top = oppositeSide Side.bottom) from
            fun h => hL (by
              have h1 := congrArg Coordinate.x h.1
              have h2 := congrArg Coordinate.y h.1
              simp only [nbrCoord] at h1 h2
              push_cast at h2
              simp only [Coordinate.mk.injEq]
              constructor <;> omega))]
        exact (by simpa only [cellAtN] using hm.2 a ha cc hc)
    case top =>
      by_cases hR : (⟨(a : Int), ((cc + 1 : Nat) : Int)⟩ : Coordinate) = ⟨x, y⟩
      · have hax : (a : Int) = x := congrArg Coordinate.x hR
        have hcy : ((cc + 1 : Nat) : Int) = y := congrArg Coordinate.y hR
        push_cast at hcy
        have hL2 : (⟨(a : Int), (cc : Int)⟩ : Coordinate) = nbrCoord x y Side.top := by
          simp only [nbrCoord, Coordinate.mk.injEq]
          constructor <;> omega
        have hval : isValidCoordinate (nbrCoord x y Side.top) := by
          simp only [nbrCoord, isValidCoordinate, BOARD_SIZE]
          omega
        rw [if_neg (fun h => Side.noConfusion h.2), if_pos ⟨hL2, hval, rfl⟩,
          if_pos ⟨hR, rfl⟩]
      · rw [if_neg (fun h => Side.noConfusion h.2),
          if_neg (show ¬((⟨(a : Int), (cc : Int)⟩ : Coordinate) = nbrCoord x y Side.top
              ∧ isValidCoordinate (nbrCoord x y Side.top)
              ∧ Side.bottom = oppositeSide Side.top) from
            fun h => hR (by
              have h1 := congrArg Coordinate.x h.1
              have h2 := congrArg Coordinate.y h.1
              simp only [nbrCoord] at h1 h2
              simp only [Coordinate.mk.injEq]
              push_cast
              constructor <;> omega)),
          if_neg (fun h => hR h.1),
          if_neg (fun h => Side.noConfusion h.2.2)]
        exact (by simpa only [cellAtN] using hm.2 a ha cc hc)

theorem mem_boardCoords (c : Coordinate) (h : isValidCoordinate c) : c ∈ boardCoords := by
  obtain ⟨hx0, hx7, hy0, hy7⟩ := h
  simp only [BOARD_SIZE] at hx7 hy7
  have hx : c.x.toNat < 7 := by omega
  have hy : c.y.toNat < 7 := by omega
  have hc : (⟨Int.ofNat c.x.toNat, Int.ofNat c.y.toNat⟩ : Coordinate) = c := by
    rw [show c = (⟨c.x, c.y⟩ : Coordinate) from rfl]
    simp only [Coordinate.mk.injEq]
    exact ⟨Int.toNat_of_nonneg hx0, Int.toNat_of_nonneg hy0⟩
  unfold boardCoords
  apply List.mem_flatten.mpr
  refine ⟨_, List.mem_map_of_mem _ (List.mem_range.mpr hy), ?_⟩
  rw [← hc]
  exact List.mem_map_of_mem _ (List.mem_range.mpr hx)

theorem coordListBound (l : List Coordinate) (hn : l.Nodup)
    (hv : ∀ c ∈ l, isValidCoordinate c) : l.length ≤ 49 := by
  have hsub : l.toFinset ⊆ boardCoords.toFinset := by
    intro c hc
    rw [List.mem_toFinset] at hc ⊢
    exact mem_boardCoords c (hv c hc)
  have hcard := Finset.card_le_card hsub
  rw [List.toFinset_card_of_nodup hn] at hcard
  have : boardCoords.toFinset.card ≤ 49 := by decide
  omega

theorem graExpand_spec (b : Board) (curr : Coordinate) (ds : List Coordinate) :
    ∀ (vis newq : List Coordinate),
      ∃ delta : List Coordinate,
        graExpand b curr ds vis newq = (vis ++ delta, newq ++ delta)
        ∧ (∀ c ∈ delta,
            ((∃ d ∈ ds, c = (⟨curr.x + d.x, curr.y + d.y⟩ : Coordinate))
              ∧ isValidCoordinate c
              ∧ isBlocked curr (cellAt b curr) c = false
              ∧ (cellAt b c).occupant = none)
            ∧ c ∉ vis)
        ∧ (∀ d ∈ ds, ∀ c : Coordinate, c = (⟨curr.x + d.x, curr.y + d.y⟩ : Coordinate) →
            isValidCoordinate c → isBlocked curr (cellAt b curr) c = false →
            (cellAt b c).occupant = none → c ∈ vis ++ delta)
        ∧ (vis.Nodup → (vis ++ delta).Nodup) := by
  induction ds with
  | nil =>
      intro vis newq
      refine ⟨[], by simp [graExpand], by simp, by simp, by simp⟩
  | cons d ds ih =>
      intro vis newq
      by_cases h1 : isValidCoordinate ⟨curr.x + d.x, curr.y + d.y⟩
      · by_cases h2 : isBlocked curr (cellAt b curr) ⟨curr.x + d.x, curr.y + d.y⟩ = true
        · obtain ⟨delta, heq, hmem, hcomp, hnd⟩ := ih vis newq
          refine ⟨delta, ?_, ?_, ?_, hnd⟩
          · rw [show graExpand b curr (d :: ds) vis newq = graExpand b curr ds vis newq from by
              simp [graExpand, h1, h2]]
            exact heq
          · intro c hc
            obtain ⟨⟨⟨dd, hdd, hde⟩, hv2, hb2, ho2⟩, hnv⟩ := hmem c hc
            exact ⟨⟨⟨dd, List.mem_cons_of_mem _ hdd, hde⟩, hv2, hb2, ho2⟩, hnv⟩
          · intro dd hdd c hceq hcv hcb hco
            rcases List.mem_cons.mp hdd with hdd | hdd
            · exfalso
              rw [hdd] at hceq
              rw [hceq] at hcb
              rw [h2] at hcb
              simp at hcb
            · exact hcomp dd hdd c hceq hcv hcb hco
        · by_cases h3 : (⟨curr.x + d.x, curr.y + d.y⟩ : Coordinate) ∉ vis
              ∧ (cellAt b ⟨curr.x + d.x, curr.y + d.y⟩).occupant = none
          · obtain ⟨delta, heq, hmem, hcomp, hnd⟩ :=
              ih (vis ++ [⟨curr.x + d.x, curr.y + d.y⟩]) (newq ++ [⟨curr.x + d.x, curr.y + d.y⟩])
            refine ⟨(⟨curr.x + d.x, curr.y + d.y⟩ : Coordinate) :: delta, ?_, ?_, ?_, ?_⟩
            · rw [show graExpand b curr (d :: ds) vis newq =
                  graExpand b curr ds (vis ++ [⟨curr.x + d.x, curr.y + d.y⟩])
                    (newq ++ [⟨curr.x + d.x, curr.y + d.y⟩]) from by
                simp [graExpand, h1, h2, h3.1, h3.2]]
              rw [heq]
              simp
            · intro c hc
              rcases List.mem_cons.mp hc with hc | hc
              · subst hc
                refine ⟨⟨⟨d, List.mem_cons_self _ _, rfl⟩, h1, ?_, h3.2⟩, h3.1⟩
                simpa using h2
              · obtain ⟨⟨⟨dd, hdd, hde⟩, hv2, hb2, ho2⟩, hnv2⟩ := hmem c hc
                refine ⟨⟨⟨dd, List.mem_cons_of_mem _ hdd, hde⟩, hv2, hb2, ho2⟩, ?_⟩
                intro hcv
                exact hnv2 (List.mem_append_left _ hcv)
            · intro dd hdd c hceq hcv hcb hco
              rcases List.mem_cons.mp hdd with hdd | hdd
              · rw [hdd] at hceq
                subst hceq
                exact List.mem_append_right _ (List.mem_cons_self _ _)
              · have := hcomp dd hdd c hceq hcv hcb hco
                simpa [List.append_assoc] using this
            · intro hvnd
              have hnd1 : (vis ++ [(⟨curr.x + d.x, curr.y + d.y⟩ : Coordinate)]).Nodup := by
                rw [List.nodup_append]
                refine ⟨hvnd, List.nodup_singleton _, ?_⟩
                intro a ha hb
                rw [List.mem_singleton] at hb
                subst hb
                exact h3.1 ha
              have h4 := hnd hnd1
              simpa [List.append_assoc] using h4
          · obtain ⟨delta, heq, hmem, hcomp, hnd⟩ := ih vis newq
            refine ⟨delta, ?_, ?_, ?_, hnd⟩
            · rw [show graExpand b curr (d :: ds) vis newq = graExpand b curr ds vis newq from by
                by_cases hin : (⟨curr.x + d.x, curr.y + d.y⟩ : Coordinate) ∈ vis
                · simp [graExpand, h1, h2, hin]
                · have ho : ¬ (cellAt b ⟨curr.x + d.x, curr.y + d.y⟩).occupant = none := by
                    intro ho
                    exact h3 ⟨hin, ho⟩
                  simp [graExpand, h1, h2, hin, ho]]
              exact heq
            · intro c hc
              obtain ⟨⟨⟨dd, hdd, hde⟩, hv2, hb2, ho2⟩, hnv⟩ := hmem c hc
              exact ⟨⟨⟨dd, List.mem_cons_of_mem _ hdd, hde⟩, hv2, hb2, ho2⟩, hnv⟩
            · intro dd hdd c hceq hcv hcb hco
              rcases List.mem_cons.mp hdd with hdd | hdd
              · rw [hdd] at hceq
                subst hceq
                have hin : (⟨curr.x + d.x, curr.y + d.y⟩ : Coordinate) ∈ vis := by
                  by_contra hin
                  exact h3 ⟨hin, hco⟩
                exact List.mem_append_left _ hin
              · exact hcomp dd hdd c hceq hcv hcb hco
      · obtain ⟨delta, heq, hmem, hcomp, hnd⟩ := ih vis newq
        refine ⟨delta, ?_, ?_, ?_, hnd⟩
        · rw [show graExpand b curr (d :: ds) vis newq = graExpand b curr ds vis newq from by
            simp [graExpand, h1]]
          exact heq
        · intro c hc
          obtain ⟨⟨⟨dd, hdd, hde⟩, hv2, hb2, ho2⟩, hnv⟩ := hmem c hc
          exact ⟨⟨⟨dd, List.mem_cons_of_mem _ hdd, hde⟩, hv2, hb2, ho2⟩, hnv⟩
        · intro dd hdd c hceq hcv hcb hco
          rcases List.mem_cons.mp hdd with hdd | hdd
          · exfalso
            rw [hdd] at hceq
            rw [hceq] at hcv
            exact h1 hcv
          · exact hcomp dd hdd c hceq hcv hcb hco

theorem graAux_spec (b : Board) (player : Player) :
    ∀ (fuel : Nat) (qs vis : List Coordinate),
      vis.Nodup →
      (∀ c ∈ vis, isValidCoordinate c) →
      (∀ c ∈ qs, c ∈ vis) →
      (∀ c ∈ vis, GraReach b player c) →
      (∀ v ∈ vis, v ∈ qs ∨ ∀ c, stepOk b v c → c ∈ vis) →
      qs.length + (49 - vis.length) ≤ fuel →
      (graAux b fuel qs vis).Nodup
      ∧ (∀ c ∈ graAux b fuel qs vis, isValidCoordinate c)
      ∧ (∀ c ∈ graAux b fuel qs vis, GraReach b player c)
      ∧ (∀ c ∈ vis, c ∈ graAux b fuel qs vis)
      ∧ (∀ v ∈ graAux b fuel qs vis, ∀ c, stepOk b v c → c ∈ graAux b fuel qs vis) := by
  intro fuel
  induction fuel with
  | zero =>
      intro qs vis hnd hval hqv hsound hsat hpot
      match qs with
      | [] =>
          refine ⟨hnd, hval, hsound, fun c hc => hc, ?_⟩
          intro v hv c hc
          rcases hsat v hv with h | h
          · exact absurd h (List.not_mem_nil _)
          · exact h c hc
      | q :: qs => simp at hpot
  | succ fuel ih =>
      intro qs vis hnd hval hqv hsound hsat hpot
      match qs with
      | [] =>
          refine ⟨hnd, hval, hsound, fun c hc => hc, ?_⟩
          intro v hv c hc
          rcases hsat v hv with h | h
          · exact absurd h (List.not_mem_nil _)
          · exact h c hc
      | curr :: qs =>
          obtain ⟨delta, heq, hmem, hcomp, hndd⟩ := graExpand_spec b curr directions vis []
          have hstep : graAux b (fuel + 1) (curr :: qs) vis =
              graAux b fuel (qs ++ delta) (vis ++ delta) := by
            rw [show graAux b (fuel + 1) (curr :: qs) vis =
                graAux b fuel (qs ++ (graExpand b curr directions vis []).2)
                  (graExpand b curr directions vis []).1 from rfl]
            rw [heq]
            simp
          rw [hstep]
          have hnd2 : (vis ++ delta).Nodup := hndd hnd
          have hval2 : ∀ c ∈ vis ++ delta, isValidCoordinate c := by
            intro c hc
            rcases List.mem_append.mp hc with hc | hc
            · exact hval c hc
            · exact (hmem c hc).1.2.1
          have hcurrv : curr ∈ vis := hqv curr (List.mem_cons_self _ _)
          have hsound2 : ∀ c ∈ vis ++ delta, GraReach b player c := by
            intro c hc
            rcases List.mem_append.mp hc with hc | hc
            · exact hsound c hc
            · obtain ⟨⟨hd, hv2, hb2, ho2⟩, _⟩ := hmem c hc
              exact GraReach.step curr c (hsound curr hcurrv) ⟨hd, hv2, hb2, ho2⟩
          have hqv2 : ∀ c ∈ qs ++ delta, c ∈ vis ++ delta := by
            intro c hc
            rcases List.mem_append.mp hc with hc | hc
            · exact List.mem_append_left _ (hqv c (List.mem_cons_of_mem _ hc))
            · exact List.mem_append_right _ hc
          have hsat2 : ∀ v ∈ vis ++ delta, v ∈ qs ++ delta ∨ ∀ c, stepOk b v c → c ∈ vis ++ delta := by
            intro v hv
            rcases List.mem_append.mp hv with hv | hv
            · by_cases hvc : v = curr
              · subst hvc
                right
                intro c hc
                obtain ⟨⟨d, hd, hde⟩, hcv, hcb, hco⟩ := hc
                exact hcomp d hd c hde hcv hcb hco
              · rcases hsat v hv with h | h
                · rcases List.mem_cons.mp h with h | h
                  · exact absurd h hvc
                  · exact Or.inl (List.mem_append_left _ h)
                · right
                  intro c hc
                  exact List.mem_append_left _ (h c hc)
            · exact Or.inl (List.mem_append_right _ hv)
          have hbound : (vis ++ delta).length ≤ 49 := coordListBound _ hnd2 hval2
          have hpot2 : (qs ++ delta).length + (49 - (vis ++ delta).length) ≤ fuel := by
            simp only [List.length_append] at hbound hpot ⊢
            simp only [List.length_cons] at hpot
            omega
          obtain ⟨r1, r2, r3, r4, r5⟩ := ih (qs ++ delta) (vis ++ delta) hnd2 hval2 hqv2 hsound2 hsat2 hpot2
          exact ⟨r1, r2, r3, fun c hc => r4 c (List.mem_append_left _ hc), r5⟩

theorem boardCoords_nodup : boardCoords.Nodup := by decide

theorem piecesOf_nodup (b : Board) (player : Player) : (piecesOf b player).Nodup :=
  List.Nodup.filter _ boardCoords_nodup

theorem boardCoords_valid : ∀ c ∈ boardCoords, isValidCoordinate c := by decide

theorem piecesOf_valid (b : Board) (player : Player) :
    ∀ c ∈ piecesOf b player, isValidCoordinate c := by
  intro c hc
  exact boardCoords_valid c (List.mem_of_mem_filter hc)

theorem getReachableArea_spec (b : Board) (player : Player) :
    (getReachableArea b player).Nodup
    ∧ (∀ c, c ∈ getReachableArea b player ↔ GraReach b player c) := by
  have hnd := piecesOf_nodup b player
  have hval := piecesOf_valid b player
  have hlen : (piecesOf b player).length ≤ 49 := coordListBound _ hnd hval
  obtain ⟨r1, r2, r3, r4, r5⟩ := graAux_spec b player 100 (piecesOf b player) (piecesOf b player)
    hnd hval (fun c hc => hc) (fun c hc => GraReach.seed c hc)
    (fun v hv => Or.inl hv) (by omega)
  refine ⟨r1, ?_⟩
  intro c
  constructor
  · exact r3 c
  · intro hr
    induction hr with
    | seed c hc => exact r4 c hc
    | step a c _ hs ihr => exact r5 a ihr c hs

theorem isBlocked_wallWrite_mono (b : Board) (x y : Int) (side : Side) (p : Player)
    (hv : isValidCoordinate ⟨x, y⟩) (a c : Coordinate)
    (h : isBlocked a (cellAt (wallWrite b x y side (some p)) a) c = false) :
    isBlocked a (cellAt b a) c = false := by
  have htop := getWall_wallWrite_or b x y side (some p) hv a Side.top
  have hbot := getWall_wallWrite_or b x y side (some p) hv a Side.bottom
  have hleft := getWall_wallWrite_or b x y side (some p) hv a Side.left
  have hright := getWall_wallWrite_or b x y side (some p) hv a Side.right
  simp only [WallState.get] at htop hbot hleft hright
  unfold isBlocked at h ⊢
  split_ifs at h ⊢
  · rcases htop with h1 | h1
    · rw [← h1]
      exact h
    · rw [h1] at h
      simp at h
  · rcases hbot with h1 | h1
    · rw [← h1]
      exact h
    · rw [h1] at h
      simp at h
  · rcases hleft with h1 | h1
    · rw [← h1]
      exact h
    · rw [h1] at h
      simp at h
  · rcases hright with h1 | h1
    · rw [← h1]
      exact h
    · rw [h1] at h
      simp at h

theorem stepOk_placeWall_mono (b : Board) (x y : Int) (side : Side) (p : Player)
    (hv : isValidCoordinate ⟨x, y⟩) (a c : Coordinate)
    (h : stepOk (placeWall b x y side p) a c) : stepOk b a c := by
  obtain ⟨hd, hv2, hb2, ho2⟩ := h
  rw [placeWall_eq_wallWrite] at hb2 ho2
  refine ⟨hd, hv2, isBlocked_wallWrite_mono b x y side p hv a c hb2, ?_⟩
  rw [← occupant_wallWrite b x y side (some p) hv c]
  exact ho2

theorem graReach_placeWall_mono (b : Board) (x y : Int) (side : Side) (p player : Player)
    (hv : isValidCoordinate ⟨x, y⟩) (c : Coordinate)
    (h : GraReach (placeWall b x y side p) player c) : GraReach b player c := by
  induction h with
  | seed c hc =>
      refine GraReach.seed c ?_
      rwa [placeWall_eq_wallWrite, piecesOf_wallWrite b x y side (some p) hv] at hc
  | step a c _ hs ih => exact GraReach.step a c ih (stepOk_placeWall_mono b x y side p hv a c hs)

/-- C8: placing a wall never increases any player's reachable-area size. -/
theorem C8_wall_monotone :
    ∀ (b : Board) (x y : Int) (side : Side) (p player : Player),
      isValidCoordinate ⟨x, y⟩ →
      (getReachableArea (placeWall b x y side p) player).length
        ≤ (getReachableArea b player).length := by
  intro b x y side p player hv
  obtain ⟨hnd1, hmem1⟩ := getReachableArea_spec (placeWall b x y side p) player
  obtain ⟨hnd2, hmem2⟩ := getReachableArea_spec b player
  rw [← List.toFinset_card_of_nodup hnd1, ← List.toFinset_card_of_nodup hnd2]
  apply Finset.card_le_card
  intro a ha
  rw [List.mem_toFinset] at ha ⊢
  exact (hmem2 a).mpr (graReach_placeWall_mono b x y side p player hv a ((hmem1 a).mp ha))

/-- Witness for C8 at a concrete board, cell and side. -/
theorem C8_wall_monotone_witness :
    (getReachableArea (placeWall scenarioBoard1 3 3 Side.top Player.RED) Player.RED).length
      ≤ (getReachableArea scenarioBoard1 Player.RED).length :=
  C8_wall_monotone scenarioBoard1 3 3 Side.top Player.RED Player.RED (by decide)

theorem stepOk_ne (b : Board) (a c : Coordinate) (h : stepOk b a c) : c ≠ a := by
  obtain ⟨⟨d, hd, hde⟩, _, _, _⟩ := h
  subst hde
  intro heq
  have hx := congrArg Coordinate.x heq
  have hy := congrArg Coordinate.y heq
  simp only at hx hy
  fin_cases hd <;> simp_all

theorem gvmExpand_spec (b : Board) (curr : Coordinate) (dist : Nat) (ds : List Coordinate) :
    ∀ (vis moves : List Coordinate) (newq : List QEntry),
      ∃ delta : List Coordinate,
        gvmExpand b curr dist ds vis moves newq =
          (vis ++ delta, moves ++ delta, newq ++ delta.map (fun c => ⟨c, dist + 1⟩))
        ∧ (∀ c ∈ delta,
            ((∃ d ∈ ds, c = (⟨curr.x + d.x, curr.y + d.y⟩ : Coordinate))
              ∧ isValidCoordinate c
              ∧ isBlocked curr (cellAt b curr) c = false
              ∧ (cellAt b c).occupant = none)
            ∧ c ∉ vis)
        ∧ (∀ d ∈ ds, ∀ c : Coordinate, c = (⟨curr.x + d.x, curr.y + d.y⟩ : Coordinate) →
            isValidCoordinate c → isBlocked curr (cellAt b curr) c = false →
            (cellAt b c).occupant = none → c ∈ vis ++ delta)
        ∧ (vis.Nodup → (vis ++ delta).Nodup) := by
  induction ds with
  | nil =>
      intro vis moves newq
      refine ⟨[], by simp [gvmExpand], by simp, by simp, by simp⟩
  | cons d ds ih =>
      intro vis moves newq
      by_cases h1 : isValidCoordinate ⟨curr.x + d.x, curr.y + d.y⟩
      · by_cases h2 : isBlocked curr (cellAt b curr) ⟨curr.x + d.x, curr.y + d.y⟩ = false
            ∧ (cellAt b ⟨curr.x + d.x, curr.y + d.y⟩).occupant = none
        · by_cases h3 : (⟨curr.x + d.x, curr.y + d.y⟩ : Coordinate) ∉ vis
          · obtain ⟨delta, heq, hmem, hcomp, hnd⟩ :=
              ih (vis ++ [⟨curr.x + d.x, curr.y + d.y⟩]) (moves ++ [⟨curr.x + d.x, curr.y + d.y⟩])
                (newq ++ [⟨(⟨curr.x + d.x, curr.y + d.y⟩ : Coordinate), dist + 1⟩])
            refine ⟨(⟨curr.x + d.x, curr.y + d.y⟩ : Coordinate) :: delta, ?_, ?_, ?_, ?_⟩
            · rw [show gvmExpand b curr dist (d :: ds) vis moves newq =
                  gvmExpand b curr dist ds (vis ++ [⟨curr.x + d.x, curr.y + d.y⟩])
                    (moves ++ [⟨curr.x + d.x, curr.y + d.y⟩])
                    (newq ++ [⟨(⟨curr.x + d.x, curr.y + d.y⟩ : Coordinate), dist + 1⟩]) from by
                have h2' : ¬ isBlocked curr (cellAt b curr) ⟨curr.x + d.x, curr.y + d.y⟩ = true := by
                  rw [h2.1]
                  simp
                simp [gvmExpand, h1, h2', h2.2, h3]]
              rw [heq]
              simp
            · intro c hc
              rcases List.mem_cons.mp hc with hc | hc
              · subst hc
                exact ⟨⟨⟨d, List.mem_cons_self _ _, rfl⟩, h1, h2.1, h2.2⟩, h3⟩
              · obtain ⟨⟨⟨dd, hdd, hde⟩, hv2, hb2, ho2⟩, hnv2⟩ := hmem c hc
                refine ⟨⟨⟨dd, List.mem_cons_of_mem _ hdd, hde⟩, hv2, hb2, ho2⟩, ?_⟩
                intro hcv
                exact hnv2 (List.mem_append_left _ hcv)
            · intro dd hdd c hceq hcv hcb hco
              rcases List.mem_cons.mp hdd with hdd | hdd
              · rw [hdd] at hceq
                subst hceq
                exact List.mem_append_right _ (List.mem_cons_self _ _)
              · have := hcomp dd hdd c hceq hcv hcb hco
                simpa [List.append_assoc] using this
            · intro hvnd
              have hnd1 : (vis ++ [(⟨curr.x + d.x, curr.y + d.y⟩ : Coordinate)]).Nodup := by
                rw [List.nodup_append]
                refine ⟨hvnd, List.nodup_singleton _, ?_⟩
                intro a ha hb
                rw [List.mem_singleton] at hb
                subst hb
                exact h3 ha
              have h4 := hnd hnd1
              simpa [List.append_assoc] using h4
          · obtain ⟨delta, heq, hmem, hcomp, hnd⟩ := ih vis moves newq
            refine ⟨delta, ?_, ?_, ?_, hnd⟩
            · rw [show gvmExpand b curr dist (d :: ds) vis moves newq =
                  gvmExpand b curr dist ds vis moves newq from by
                have h2' : ¬ isBlocked curr (cellAt b curr) ⟨curr.x + d.x, curr.y + d.y⟩ = true := by
                  rw [h2.1]
                  simp
                simp [gvmExpand, h1, h2', h2.2, h3]]
              exact heq
            · intro c hc
              obtain ⟨⟨⟨dd, hdd, hde⟩, hv2, hb2, ho2⟩, hnv⟩ := hmem c hc
              exact ⟨⟨⟨dd, List.mem_cons_of_mem _ hdd, hde⟩, hv2, hb2, ho2⟩, hnv⟩
            · intro dd hdd c hceq hcv hcb hco
              rcases List.mem_cons.mp hdd with hdd | hdd
              · rw [hdd] at hceq
                subst hceq
                rw [not_not] at h3
                exact List.mem_append_left _ h3
              · exact hcomp dd hdd c hceq hcv hcb hco
        · obtain ⟨delta, heq, hmem, hcomp, hnd⟩ := ih vis moves newq
          refine ⟨delta, ?_, ?_, ?_, hnd⟩
          · rw [show gvmExpand b curr dist (d :: ds) vis moves newq =
                gvmExpand b curr dist ds vis moves newq from by
              have h2' : ¬ (¬ isBlocked curr (cellAt b curr) ⟨curr.x + d.x, curr.y + d.y⟩ = true
                  ∧ (cellAt b ⟨curr.x + d.x, curr.y + d.y⟩).occupant = none) := by
                intro hcon
                refine h2 ⟨?_, hcon.2⟩
                revert hcon
                cases isBlocked curr (cellAt b curr) ⟨curr.x + d.x, curr.y + d.y⟩ <;> simp
              simp only [gvmExpand]
              rw [if_pos h1, if_neg h2']]
            exact heq
          · intro c hc
            obtain ⟨⟨⟨dd, hdd, hde⟩, hv2, hb2, ho2⟩, hnv⟩ := hmem c hc
            exact ⟨⟨⟨dd, List.mem_cons_of_mem _ hdd, hde⟩, hv2, hb2, ho2⟩, hnv⟩
          · intro dd hdd c hceq hcv hcb hco
            rcases List.mem_cons.mp hdd with hdd | hdd
            · exfalso
              rw [hdd] at hceq
              subst hceq
              exact h2 ⟨hcb, hco⟩
            · exact hcomp dd hdd c hceq hcv hcb hco
      · obtain ⟨delta, heq, hmem, hcomp, hnd⟩ := ih vis moves newq
        refine ⟨delta, ?_, ?_, ?_, hnd⟩
        · rw [show gvmExpand b curr dist (d :: ds) vis moves newq =
              gvmExpand b curr dist ds vis moves newq from by
            simp [gvmExpand, h1]]
          exact heq
        · intro c hc
          obtain ⟨⟨⟨dd, hdd, hde⟩, hv2, hb2, ho2⟩, hnv⟩ := hmem c hc
          exact ⟨⟨⟨dd, List.mem_cons_of_mem _ hdd, hde⟩, hv2, hb2, ho2⟩, hnv⟩
        · intro dd hdd c hceq hcv hcb hco
          rcases List.mem_cons.mp hdd with hdd | hdd
          · exfalso
            rw [hdd] at hceq
            rw [hceq] at hcv
            exact h1 hcv
          · exact hcomp dd hdd c hceq hcv hcb hco

theorem gvmAux_spec (b : Board) (start : Coordinate) :
    ∀ (fuel : Nat) (qs : List QEntry) (vis moves : List Coordinate),
      moves = vis →
      vis.Nodup →
      (∀ c ∈ vis, isValidCoordinate c) →
      (∀ e ∈ qs, e.coord ∈ vis) →
      (∀ e ∈ qs, (e.dist = 1 ∧ stepOk b start e.coord) ∨ e.dist = 2) →
      (∀ c ∈ vis, reachWithin2 b start c) →
      (∀ z, reachWithin2 b start z →
        z ∈ vis ∨ ∃ e ∈ qs, e.dist = 1 ∧ (z = e.coord ∨ stepOk b e.coord z)) →
      qs.length + (49 - vis.length) ≤ fuel →
      (gvmAux b fuel qs vis moves).2 = (gvmAux b fuel qs vis moves).1
      ∧ (gvmAux b fuel qs vis moves).1.Nodup
      ∧ (∀ c ∈ gvmAux b fuel qs vis moves |>.1, reachWithin2 b start c)
      ∧ (∀ z, reachWithin2 b start z → z ∈ (gvmAux b fuel qs vis moves).1)
      ∧ (∀ c ∈ vis, c ∈ (gvmAux b fuel qs vis moves).1) := by
  intro fuel
  induction fuel with
  | zero =>
      intro qs vis moves hmv hnd hval hqv hqd hsound hcov hpot
      match qs with
      | [] =>
          refine ⟨hmv, hnd, hsound, ?_, fun c hc => hc⟩
          intro z hz
          rcases hcov z hz with h | ⟨e, he, _⟩
          · exact h
          · exact absurd he (List.not_mem_nil _)
      | q :: qs => simp at hpot
  | succ fuel ih =>
      intro qs vis moves hmv hnd hval hqv hqd hsound hcov hpot
      match qs with
      | [] =>
          refine ⟨hmv, hnd, hsound, ?_, fun c hc => hc⟩
          intro z hz
          rcases hcov z hz with h | ⟨e, he, _⟩
          · exact h
          · exact absurd he (List.not_mem_nil _)
      | e :: qs =>
          by_cases hd2 : e.dist ≥ 2
          · have hstep : gvmAux b (fuel + 1) (e :: qs) vis moves =
                gvmAux b fuel qs vis moves := by
              rw [show gvmAux b (fuel + 1) (e :: qs) vis moves =
                  if e.dist ≥ 2 then gvmAux b fuel qs vis moves
                  else gvmAux b fuel
                    (qs ++ (gvmExpand b e.coord e.dist directions vis moves []).2.2)
                    (gvmExpand b e.coord e.dist directions vis moves []).1
                    (gvmExpand b e.coord e.dist directions vis moves []).2.1 from rfl]
              rw [if_pos hd2]
            rw [hstep]
            have hqd1 : e.dist = 2 := by
              rcases hqd e (List.mem_cons_self _ _) with ⟨h1, _⟩ | h1
              · omega
              · exact h1
            refine ih qs vis moves hmv hnd hval
              (fun e' he' => hqv e' (List.mem_cons_of_mem _ he'))
              (fun e' he' => hqd e' (List.mem_cons_of_mem _ he'))
              hsound ?_ (by simp only [List.length_cons] at hpot; omega)
            intro z hz
            rcases hcov z hz with h | ⟨e', he', hd1, hzz⟩
            · exact Or.inl h
            · rcases List.mem_cons.mp he' with he' | he'
              · exfalso
                rw [he'] at hd1
                omega
              · exact Or.inr ⟨e', he', hd1, hzz⟩
          · have hqd1 : e.dist = 1 ∧ stepOk b start e.coord := by
              rcases hqd e (List.mem_cons_self _ _) with h1 | h1
              · exact h1
              · omega
            obtain ⟨delta, heq, hmem, hcomp, hndd⟩ :=
              gvmExpand_spec b e.coord e.dist directions vis moves []
            have hstep : gvmAux b (fuel + 1) (e :: qs) vis moves =
                gvmAux b fuel (qs ++ delta.map (fun c => ⟨c, e.dist + 1⟩))
                  (vis ++ delta) (moves ++ delta) := by
              rw [show gvmAux b (fuel + 1) (e :: qs) vis moves =
                  if e.dist ≥ 2 then gvmAux b fuel qs vis moves
                  else gvmAux b fuel
                    (qs ++ (gvmExpand b e.coord e.dist directions vis moves []).2.2)
                    (gvmExpand b e.coord e.dist directions vis moves []).1
                    (gvmExpand b e.coord e.dist directions vis moves []).2.1 from rfl]
              rw [if_neg hd2, heq]
              simp
            rw [hstep]
            have hnd2 : (vis ++ delta).Nodup := hndd hnd
            have hval2 : ∀ c ∈ vis ++ delta, isValidCoordinate c := by
              intro c hc
              rcases List.mem_append.mp hc with hc | hc
              · exact hval c hc
              · exact (hmem c hc).1.2.1
            have hsound2 : ∀ c ∈ vis ++ delta, reachWithin2 b start c := by
              intro c hc
              rcases List.mem_append.mp hc with hc | hc
              · exact hsound c hc
              · obtain ⟨⟨hdir, hv2, hb2, ho2⟩, _⟩ := hmem c hc
                exact Or.inr (Or.inr ⟨e.coord, hqd1.2, ⟨hdir, hv2, hb2, ho2⟩⟩)
            have hqv2 : ∀ e' ∈ qs ++ delta.map (fun c => (⟨c, e.dist + 1⟩ : QEntry)),
                e'.coord ∈ vis ++ delta := by
              intro e' he'
              rcases List.mem_append.mp he' with he' | he'
              · exact List.mem_append_left _ (hqv e' (List.mem_cons_of_mem _ he'))
              · obtain ⟨c, hc, hce⟩ := List.mem_map.mp he'
                rw [← hce]
                exact List.mem_append_right _ hc
            have hqd2 : ∀ e' ∈ qs ++ delta.map (fun c => (⟨c, e.dist + 1⟩ : QEntry)),
                (e'.dist = 1 ∧ stepOk b start e'.coord) ∨ e'.dist = 2 := by
              intro e' he'
              rcases List.mem_append.mp he' with he' | he'
              · exact hqd e' (List.mem_cons_of_mem _ he')
              · obtain ⟨c, hc, hce⟩ := List.mem_map.mp he'
                rw [← hce]
                right
                simp only
                omega
            have hcov2 : ∀ z, reachWithin2 b start z →
                z ∈ vis ++ delta ∨ ∃ e' ∈ qs ++ delta.map (fun c => (⟨c, e.dist + 1⟩ : QEntry)),
                  e'.dist = 1 ∧ (z = e'.coord ∨ stepOk b e'.coord z) := by
              intro z hz
              rcases hcov z hz with h | ⟨e', he', hd1, hzz⟩
              · exact Or.inl (List.mem_append_left _ h)
              · rcases List.mem_cons.mp he' with he' | he'
                · rcases hzz with hzz | hzz
                  · refine Or.inl (List.mem_append_left _ ?_)
                    rw [hzz, he']
                    exact hqv e (List.mem_cons_self _ _)
                  · rw [he'] at hzz
                    obtain ⟨⟨dd, hdd, hde⟩, hv2, hb2, ho2⟩ := hzz
                    exact Or.inl (hcomp dd hdd z hde hv2 hb2 ho2)
                · exact Or.inr ⟨e', List.mem_append_left _ he', hd1, hzz⟩
            have hbound : (vis ++ delta).length ≤ 49 := coordListBound _ hnd2 hval2
            have hpot2 : (qs ++ delta.map (fun c => (⟨c, e.dist + 1⟩ : QEntry))).length
                + (49 - (vis ++ delta).length) ≤ fuel := by
              simp only [List.length_append, List.length_map, List.length_cons] at hbound hpot ⊢
              omega
            obtain ⟨r1, r2, r3, r4, r5⟩ := ih (qs ++ delta.map (fun c => ⟨c, e.dist + 1⟩))
              (vis ++ delta) (moves ++ delta) (by rw [hmv]) hnd2 hval2 hqv2 hqd2 hsound2
              hcov2 hpot2
            exact ⟨r1, r2, r3, r4, fun c hc => r5 c (List.mem_append_left _ hc)⟩

theorem getValidMoves_characterization :
    ∀ (b : Board) (start : Coordinate), isValidCoordinate start →
      (getValidMoves b start).Nodup
      ∧ start ∈ getValidMoves b start
      ∧ (∀ c, c ∈ getValidMoves b start ↔ reachWithin2 b start c) := by
  intro b start hstart
  obtain ⟨delta, heq, hmem, hcomp, hndd⟩ :=
    gvmExpand_spec b start 0 directions [start] [start] []
  have hstep : getValidMoves b start =
      (gvmAux b 99 (delta.map (fun c => ⟨c, 1⟩)) (start :: delta) (start :: delta)).2 := by
    rw [show getValidMoves b start =
        (gvmAux b 99 ([] ++ (gvmExpand b start 0 directions [start] [start] []).2.2)
          (gvmExpand b start 0 directions [start] [start] []).1
          (gvmExpand b start 0 directions [start] [start] []).2.1).2 from rfl]
    rw [heq]
    simp
  have hnd2 : (start :: delta).Nodup := hndd (List.nodup_singleton start)
  have hval2 : ∀ c ∈ start :: delta, isValidCoordinate c := by
    intro c hc
    rcases List.mem_cons.mp hc with hc | hc
    · rw [hc]
      exact hstart
    · exact (hmem c hc).1.2.1
  have hqv2 : ∀ e ∈ delta.map (fun c => (⟨c, 1⟩ : QEntry)), e.coord ∈ start :: delta := by
    intro e he
    obtain ⟨c, hc, hce⟩ := List.mem_map.mp he
    rw [← hce]
    exact List.mem_cons_of_mem _ hc
  have hqd2 : ∀ e ∈ delta.map (fun c => (⟨c, 1⟩ : QEntry)),
      (e.dist = 1 ∧ stepOk b start e.coord) ∨ e.dist = 2 := by
    intro e he
    obtain ⟨c, hc, hce⟩ := List.mem_map.mp he
    rw [← hce]
    left
    refine ⟨rfl, ?_⟩
    obtain ⟨⟨hdir, hv2, hb2, ho2⟩, _⟩ := hmem c hc
    exact ⟨hdir, hv2, hb2, ho2⟩
  have hsound2 : ∀ c ∈ start :: delta, reachWithin2 b start c := by
    intro c hc
    rcases List.mem_cons.mp hc with hc | hc
    · exact Or.inl hc
    · obtain ⟨⟨hdir, hv2, hb2, ho2⟩, _⟩ := hmem c hc
      exact Or.inr (Or.inl ⟨hdir, hv2, hb2, ho2⟩)
  have hcov2 : ∀ z, reachWithin2 b start z →
      z ∈ start :: delta ∨ ∃ e ∈ delta.map (fun c => (⟨c, 1⟩ : QEntry)),
        e.dist = 1 ∧ (z = e.coord ∨ stepOk b e.coord z) := by
    intro z hz
    rcases hz with hz | hz | ⟨m, hm1, hm2⟩
    · exact Or.inl (by rw [hz]; exact List.mem_cons_self _ _)
    · obtain ⟨⟨dd, hdd, hde⟩, hv2, hb2, ho2⟩ := hz
      exact Or.inl (hcomp dd hdd z hde hv2 hb2 ho2)
    · have hmmem : m ∈ start :: delta := by
        obtain ⟨⟨dd, hdd, hde⟩, hv2, hb2, ho2⟩ := hm1
        exact hcomp dd hdd m hde hv2 hb2 ho2
      have hmne : m ≠ start := stepOk_ne b start m hm1
      have hmd : m ∈ delta := by
        rcases List.mem_cons.mp hmmem with h | h
        · exact absurd h hmne
        · exact h
      exact Or.inr ⟨⟨m, 1⟩, List.mem_map_of_mem _ hmd, rfl, Or.inr hm2⟩
  have hbound : (start :: delta).length ≤ 49 := coordListBound _ hnd2 hval2
  have hpot2 : (delta.map (fun c => (⟨c, 1⟩ : QEntry))).length
      + (49 - (start :: delta).length) ≤ 99 := by
    simp only [List.length_map, List.length_cons] at hbound ⊢
    omega
  obtain ⟨r1, r2, r3, r4, r5⟩ := gvmAux_spec b start 99 (delta.map (fun c => ⟨c, 1⟩))
    (start :: delta) (start :: delta) rfl hnd2 hval2 hqv2 hqd2 hsound2 hcov2 hpot2
  rw [hstep, r1]
  exact ⟨r2, r5 start (List.mem_cons_self _ _), fun c => ⟨r3 c, r4 c⟩⟩

/-- C6: getValidMoves contains the origin and returns, without duplicates,
exactly the coordinates reachable from the origin in zero, one or two legal
orthogonal steps (each step in bounds, unblocked and onto an empty cell, so
no jumping); on the empty 7x7 board from (3,3) it returns exactly 13
coordinates. -/
theorem C6_getValidMoves :
    (∀ (b : Board) (start : Coordinate), isValidCoordinate start →
      (getValidMoves b start).Nodup
      ∧ start ∈ getValidMoves b start
      ∧ (∀ c, c ∈ getValidMoves b start ↔ reachWithin2 b start c))
    ∧ (getValidMoves createInitialBoard ⟨3, 3⟩).length = 13 :=
  ⟨getValidMoves_characterization, by decide⟩

theorem territoryFold_append (b : Board) (l : List Player) (p : Player) :
    territoryFold b (l ++ [p]) =
      if (calculateLargestTerritory b p : Int) > (territoryFold b l).1 then
        ((calculateLargestTerritory b p : Int), some p, false)
      else if (calculateLargestTerritory b p : Int) = (territoryFold b l).1 then
        ((territoryFold b l).1, (territoryFold b l).2.1, true)
      else territoryFold b l := by
  unfold territoryFold
  rw [List.foldl_append]
  rfl

theorem territoryFold_spec (b : Board) :
    ∀ l : List Player, l.Nodup →
      ((territoryFold b l) = (-1, none, false) ∧ l = [])
      ∨ (∃ pm ∈ l, (territoryFold b l).2.1 = some pm
          ∧ (calculateLargestTerritory b pm : Int) = (territoryFold b l).1
          ∧ (∀ q ∈ l, (calculateLargestTerritory b q : Int) ≤ (territoryFold b l).1)
          ∧ ((territoryFold b l).2.2 = true ↔ ∃ p1 ∈ l, ∃ p2 ∈ l, p1 ≠ p2
              ∧ (calculateLargestTerritory b p1 : Int) = (territoryFold b l).1
              ∧ (calculateLargestTerritory b p2 : Int) = (territoryFold b l).1)) := by
  intro l
  induction l using List.reverseRecOn with
  | nil =>
      intro _
      exact Or.inl ⟨rfl, rfl⟩
  | append_singleton l p ih =>
      intro hnd
      have hnd' : l.Nodup ∧ p ∉ l := by
        rw [List.nodup_append] at hnd
        refine ⟨hnd.1, ?_⟩
        intro hp
        exact hnd.2.2 hp (List.mem_singleton.mpr rfl)
      have ht0 : (0 : Int) ≤ (calculateLargestTerritory b p : Int) := Int.ofNat_nonneg _
      rw [territoryFold_append]
      rcases ih hnd'.1 with ⟨hfold, hnil⟩ | ⟨pm, hpm, htw, hta, hbound, htie⟩
      · rw [hfold]
        subst hnil
        rw [if_pos (show (calculateLargestTerritory b p : Int)
            > ((-1 : Int), (none : Option Player), false).1 from by
          show (calculateLargestTerritory b p : Int) > -1
          omega)]
        right
        refine ⟨p, List.mem_append_right _ (List.mem_singleton.mpr rfl), rfl, rfl, ?_, ?_⟩
        · intro q hq
          rw [List.nil_append, List.mem_singleton] at hq
          subst hq
          exact le_refl _
        · constructor
          · intro hfalse
            exact absurd hfalse (by simp)
          · rintro ⟨p1, hp1, p2, hp2, hne, _, _⟩
            rw [List.nil_append, List.mem_singleton] at hp1 hp2
            subst hp1
            subst hp2
            exact absurd rfl hne
      · by_cases hgt : (calculateLargestTerritory b p : Int) > (territoryFold b l).1
        · rw [if_pos hgt]
          right
          refine ⟨p, List.mem_append_right _ (List.mem_singleton.mpr rfl), rfl, rfl, ?_, ?_⟩
          · intro q hq
            rcases List.mem_append.mp hq with hq | hq
            · have := hbound q hq
              show (calculateLargestTerritory b q : Int) ≤ (calculateLargestTerritory b p : Int)
              omega
            · rw [List.mem_singleton] at hq
              subst hq
              exact le_refl _
          · constructor
            · intro hfalse
              exact absurd hfalse (by simp)
            · rintro ⟨p1, hp1, p2, hp2, hne, he1, he2⟩
              exfalso
              have he1' : (calculateLargestTerritory b p1 : Int)
                  = (calculateLargestTerritory b p : Int) := he1
              have he2' : (calculateLargestTerritory b p2 : Int)
                  = (calculateLargestTerritory b p : Int) := he2
              rcases List.mem_append.mp hp1 with h1 | h1
              · have := hbound p1 h1
                omega
              · rcases List.mem_append.mp hp2 with h2 | h2
                · have := hbound p2 h2
                  omega
                · rw [List.mem_singleton] at h1 h2
                  subst h1
                  subst h2
                  exact hne rfl
        · by_cases heq : (calculateLargestTerritory b p : Int) = (territoryFold b l).1
          · rw [if_neg hgt, if_pos heq]
            right
            refine ⟨pm, List.mem_append_left _ hpm, htw, hta, ?_, ?_⟩
            · intro q hq
              rcases List.mem_append.mp hq with hq | hq
              · exact hbound q hq
              · rw [List.mem_singleton] at hq
                subst hq
                show (calculateLargestTerritory b q : Int) ≤ (territoryFold b l).1
                omega
            · constructor
              · intro _
                refine ⟨pm, List.mem_append_left _ hpm, p,
                  List.mem_append_right _ (List.mem_singleton.mpr rfl), ?_, hta, heq⟩
                intro hcon
                exact hnd'.2 (hcon ▸ hpm)
              · intro _
                rfl
          · rw [if_neg hgt, if_neg heq]
            right
            refine ⟨pm, List.mem_append_left _ hpm, htw, hta, ?_, ?_⟩
            · intro q hq
              rcases List.mem_append.mp hq with hq | hq
              · exact hbound q hq
              · rw [List.mem_singleton] at hq
                subst hq
                show (calculateLargestTerritory b q : Int) ≤ (territoryFold b l).1
                omega
            · rw [htie]
              constructor
              · rintro ⟨p1, hp1, p2, hp2, hne, he1, he2⟩
                exact ⟨p1, List.mem_append_left _ hp1, p2, List.mem_append_left _ hp2,
                  hne, he1, he2⟩
              · rintro ⟨p1, hp1, p2, hp2, hne, he1, he2⟩
                rcases List.mem_append.mp hp1 with h1 | h1
                · rcases List.mem_append.mp hp2 with h2 | h2
                  · exact ⟨p1, h1, p2, h2, hne, he1, he2⟩
                  · rw [List.mem_singleton] at h2
                    subst h2
                    exact absurd he2 heq
                · rw [List.mem_singleton] at h1
                  subst h1
                  exact absurd he1 heq

theorem maxScoreOf_append (scores : Player → Option Nat) (l : List Player) (p : Player) :
    maxScoreOf scores (l ++ [p]) =
      if (((scores p).getD 0 : Nat) : Int) > maxScoreOf scores l
      then (((scores p).getD 0 : Nat) : Int)
      else maxScoreOf scores l := by
  unfold maxScoreOf
  rw [List.foldl_append]
  rfl

theorem maxScoreOf_spec (scores : Player → Option Nat) :
    ∀ l : List Player,
      (∀ q ∈ l, (((scores q).getD 0 : Nat) : Int) ≤ maxScoreOf scores l)
      ∧ (l ≠ [] → ∃ q ∈ l, (((scores q).getD 0 : Nat) : Int) = maxScoreOf scores l) := by
  intro l
  induction l using List.reverseRecOn with
  | nil =>
      constructor
      · intro q hq
        exact absurd hq (List.not_mem_nil _)
      · intro h
        exact absurd rfl h
  | append_singleton l p ih =>
      rw [maxScoreOf_append]
      by_cases hgt : (((scores p).getD 0 : Nat) : Int) > maxScoreOf scores l
      · rw [if_pos hgt]
        constructor
        · intro q hq
          rcases List.mem_append.mp hq with hq | hq
          · have := ih.1 q hq
            omega
          · rw [List.mem_singleton] at hq
            subst hq
            exact le_refl _
        · intro _
          exact ⟨p, List.mem_append_right _ (List.mem_singleton.mpr rfl), rfl⟩
      · rw [if_neg hgt]
        have hl : l ≠ [] := by
          intro hl
          subst hl
          have h0 : (0 : Int) ≤ (((scores p).getD 0 : Nat) : Int) := Int.ofNat_nonneg _
          have hm : maxScoreOf scores ([] : List Player) = -1 := rfl
          rw [hm] at hgt
          omega
        constructor
        · intro q hq
          rcases List.mem_append.mp hq with hq | hq
          · exact ih.1 q hq
          · rw [List.mem_singleton] at hq
            subst hq
            omega
        · intro _
          obtain ⟨q, hq, hqe⟩ := ih.2 hl
          exact ⟨q, List.mem_append_left _ hq, hqe⟩

theorem mem_candidatesOf (scores : Player → Option Nat) (aps : List Player) (p : Player) :
    p ∈ candidatesOf scores aps ↔
      p ∈ aps ∧ (((scores p).getD 0 : Nat) : Int) = maxScoreOf scores aps := by
  unfold candidatesOf
  rw [List.mem_filter]
  simp only [beq_iff_eq]

theorem resolveWinner_unique (b : Board) (scores : Player → Option Nat) (aps : List Player)
    (p : Player) (hcand : candidatesOf scores aps = [p]) :
    resolveWinner b scores aps = Winner.won p := by
  simp [resolveWinner, hcand]

theorem resolveWinner_strict (b : Board) (scores : Player → Option Nat) (aps : List Player)
    (p : Player) (hnd : aps.Nodup) (hp : p ∈ candidatesOf scores aps)
    (hstrict : ∀ q ∈ candidatesOf scores aps, q ≠ p →
      calculateLargestTerritory b q < calculateLargestTerritory b p) :
    resolveWinner b scores aps = Winner.won p := by
  have hcnd : (candidatesOf scores aps).Nodup := hnd.filter _
  by_cases hlen : (candidatesOf scores aps).length = 1
  · obtain ⟨a, ha⟩ := List.length_eq_one.mp hlen
    have hpa : p = a := by
      rw [ha] at hp
      exact List.mem_singleton.mp hp
    subst hpa
    exact resolveWinner_unique b scores aps p ha
  · have hne : candidatesOf scores aps ≠ [] := by
      intro h
      rw [h] at hp
      exact List.not_mem_nil p hp
    rcases territoryFold_spec b (candidatesOf scores aps) hcnd with ⟨_, hnil⟩ |
      ⟨pm, hpm, htw, hta, hbound, htie⟩
    · exact absurd hnil hne
    · have hpmp : pm = p := by
        by_contra hne2
        have h1 := hstrict pm hpm hne2
        have h2 := hbound p hp
        rw [← hta] at h2
        omega
      rw [hpmp] at htw hta
      have htie_false : (territoryFold b (candidatesOf scores aps)).2.2 = false := by
        by_contra hcon
        have htrue : (territoryFold b (candidatesOf scores aps)).2.2 = true := by
          revert hcon
          cases (territoryFold b (candidatesOf scores aps)).2.2 <;> simp
        obtain ⟨p1, hp1, p2, hp2, hne12, he1, he2⟩ := htie.mp htrue
        by_cases hp1p : p1 = p
        · have hp2p : p2 ≠ p := by
            intro h
            exact hne12 (hp1p.trans h.symm)
          have := hstrict p2 hp2 hp2p
          rw [← hta] at he2
          omega
        · have := hstrict p1 hp1 hp1p
          rw [← hta] at he1
          omega
      simp only [resolveWinner]
      rw [if_neg hlen, if_neg (by rw [htie_false]; simp), htw]

theorem resolveWinner_tie (b : Board) (scores : Player → Option Nat) (aps : List Player)
    (p q : Player) (hnd : aps.Nodup) (hp : p ∈ candidatesOf scores aps)
    (hq : q ∈ candidatesOf scores aps) (hpq : p ≠ q)
    (heq : calculateLargestTerritory b p = calculateLargestTerritory b q)
    (hmax : ∀ r ∈ candidatesOf scores aps,
      calculateLargestTerritory b r ≤ calculateLargestTerritory b p) :
    resolveWinner b scores aps = Winner.draw := by
  have hcnd : (candidatesOf scores aps).Nodup := hnd.filter _
  have hlen : (candidatesOf scores aps).length ≠ 1 := by
    intro hlen
    obtain ⟨a, ha⟩ := List.length_eq_one.mp hlen
    rw [ha, List.mem_singleton] at hp hq
    exact hpq (hp.trans hq.symm)
  have hne : candidatesOf scores aps ≠ [] := by
    intro h
    rw [h] at hp
    exact List.not_mem_nil p hp
  rcases territoryFold_spec b (candidatesOf scores aps) hcnd with ⟨_, hnil⟩ |
    ⟨pm, hpm, htw, hta, hbound, htie⟩
  · exact absurd hnil hne
  · have hpmax : (calculateLargestTerritory b p : Int)
        = (territoryFold b (candidatesOf scores aps)).1 := by
      have h1 := hbound p hp
      have h2 := hmax pm hpm
      omega
    have htrue : (territoryFold b (candidatesOf scores aps)).2.2 = true := by
      refine htie.mpr ⟨p, hp, q, hq, hpq, hpmax, ?_⟩
      rw [← hpmax]
      omega
    simp only [resolveWinner]
    rw [if_neg hlen, if_pos (by rw [htrue])]

/-- C2: on game over the winner resolution takes the active players of
maximum score; a unique candidate wins outright, a candidate with the
strictly largest single territory wins the tie-break, and a multi-way tie at
the top of the tie-break metric is a draw; endTurn resolves the winner this
way on the game-over branch. -/
theorem C2_winner_resolution :
    (∀ (b : Board) (aps : List Player) (p : Player),
        p ∈ candidatesOf (calculateScoresActive b aps) aps →
        ∀ q ∈ aps, (((calculateScoresActive b aps q).getD 0 : Nat) : Int)
          ≤ (((calculateScoresActive b aps p).getD 0 : Nat) : Int))
    ∧ (∀ (b : Board) (aps : List Player) (p : Player),
        candidatesOf (calculateScoresActive b aps) aps = [p] →
        resolveWinner b (calculateScoresActive b aps) aps = Winner.won p)
    ∧ (∀ (b : Board) (aps : List Player) (p : Player),
        aps.Nodup →
        p ∈ candidatesOf (calculateScoresActive b aps) aps →
        (∀ q ∈ candidatesOf (calculateScoresActive b aps) aps, q ≠ p →
          calculateLargestTerritory b q < calculateLargestTerritory b p) →
        resolveWinner b (calculateScoresActive b aps) aps = Winner.won p)
    ∧ (∀ (b : Board) (aps : List Player) (p q : Player),
        aps.Nodup →
        p ∈ candidatesOf (calculateScoresActive b aps) aps →
        q ∈ candidatesOf (calculateScoresActive b aps) aps →
        p ≠ q →
        calculateLargestTerritory b p = calculateLargestTerritory b q →
        (∀ r ∈ candidatesOf (calculateScoresActive b aps) aps,
          calculateLargestTerritory b r ≤ calculateLargestTerritory b p) →
        resolveWinner b (calculateScoresActive b aps) aps = Winner.draw)
    ∧ (∀ s : GameState, checkGameEndConditionActive s.board s.activePlayers = true →
        (endTurn s).phase = GamePhase.GAME_OVER
        ∧ (endTurn s).winner =
            resolveWinner s.board (calculateScoresActive s.board s.activePlayers)
              s.activePlayers) := by
  refine ⟨?_, ?_, ?_, ?_, ?_⟩
  · intro b aps p hp q hq
    have hmax := (mem_candidatesOf _ aps p).mp hp
    have hb := (maxScoreOf_spec (calculateScoresActive b aps) aps).1 q hq
    rw [hmax.2]
    exact hb
  · intro b aps p hcand
    exact resolveWinner_unique b _ aps p hcand
  · intro b aps p hnd hp hstrict
    exact resolveWinner_strict b _ aps p hnd hp hstrict
  · intro b aps p q hnd hp hq hpq heq hmax
    exact resolveWinner_tie b _ aps p q hnd hp hq hpq heq hmax
  · intro s h
    constructor <;> simp [endTurn, h]

set_option maxHeartbeats 4000000 in
/-- Witness for C2: the three concrete scenarios (areas 20 against 15; 18/18
with largest territories 10/10; 18/18 with largest territories 12/9). -/
theorem C2_winner_resolution_witness :
    (calculateScoresActive scenarioBoard1 [Player.RED, Player.BLUE] Player.RED = some 20
      ∧ calculateScoresActive scenarioBoard1 [Player.RED, Player.BLUE] Player.BLUE = some 15
      ∧ resolveWinner scenarioBoard1 (calculateScoresActive scenarioBoard1
          [Player.RED, Player.BLUE]) [Player.RED, Player.BLUE] = Winner.won Player.RED)
    ∧ (calculateScoresActive scenarioBoard2 [Player.RED, Player.BLUE] Player.RED = some 18
      ∧ calculateScoresActive scenarioBoard2 [Player.RED, Player.BLUE] Player.BLUE = some 18
      ∧ calculateLargestTerritory scenarioBoard2 Player.RED = 10
      ∧ calculateLargestTerritory scenarioBoard2 Player.BLUE = 10
      ∧ resolveWinner scenarioBoard2 (calculateScoresActive scenarioBoard2
          [Player.RED, Player.BLUE]) [Player.RED, Player.BLUE] = Winner.draw)
    ∧ (calculateScoresActive scenarioBoard3 [Player.RED, Player.BLUE] Player.RED = some 18
      ∧ calculateScoresActive scenarioBoard3 [Player.RED, Player.BLUE] Player.BLUE = some 18
      ∧ calculateLargestTerritory scenarioBoard3 Player.RED = 12
      ∧ calculateLargestTerritory scenarioBoard3 Player.BLUE = 9
      ∧ resolveWinner scenarioBoard3 (calculateScoresActive scenarioBoard3
          [Player.RED, Player.BLUE]) [Player.RED, Player.BLUE] = Winner.won Player.RED) := by
  refine ⟨⟨by decide, by decide, ?_⟩, ⟨by decide, by decide, by decide, by decide, ?_⟩,
    ⟨by decide, by decide, by decide, by decide, ?_⟩⟩
  · exact C2_winner_resolution.2.1 scenarioBoard1 [Player.RED, Player.BLUE] Player.RED
      (by decide)
  · exact C2_winner_resolution.2.2.2.1 scenarioBoard2 [Player.RED, Player.BLUE]
      Player.RED Player.BLUE (by decide) (by decide) (by decide) (by decide) (by decide)
      (by decide)
  · exact C2_winner_resolution.2.2.1 scenarioBoard3 [Player.RED, Player.BLUE] Player.RED
      (by decide) (by decide) (by decide)

/-- C5: every board built from the empty board by wall-placement operations
satisfies the mirroring invariant, and immediately after placeWall the
neighbour's opposite slot holds the same owner. -/
theorem C5_wall_mirroring :
    (∀ b : Board, WallReachable b → Mirror b)
    ∧ (∀ (b : Board) (x y : Int) (side : Side) (p : Player),
        isValidCoordinate ⟨x, y⟩ → isValidCoordinate (nbrCoord x y side) →
        (cellAt (placeWall b x y side p) (nbrCoord x y side)).walls.get (oppositeSide side)
          = some p) := by
  constructor
  · intro b hb
    induction hb with
    | init => decide
    | place b x y side p _ hv ih =>
        rw [placeWall_eq_wallWrite]
        exact mirror_wallWrite b x y side (some p) hv ih
    | apply b x y side p _ hv ih =>
        rw [applyWall_eq_placeWall, placeWall_eq_wallWrite]
        exact mirror_wallWrite b x y side (some p) hv ih
    | remove b x y side _ hv ih =>
        rw [removeWall_eq_wallWrite]
        exact mirror_wallWrite b x y side none hv ih
  · intro b x y side p hv hnv
    rw [placeWall_eq_wallWrite, getWall_wallWrite b x y side (some p) hv _ (oppositeSide side)]
    rw [if_neg (fun h => nbrCoord_ne x y side h.1.symm), if_pos ⟨rfl, hnv, rfl⟩]

/-- Witness for C5: a board with one placed wall, and a concrete mirrored
placement. -/
theorem C5_wall_mirroring_witness :
    Mirror (placeWall createInitialBoard 0 0 Side.top Player.RED)
    ∧ (cellAt (placeWall createInitialBoard 3 3 Side.right Player.BLUE)
        (nbrCoord 3 3 Side.right)).walls.get (oppositeSide Side.right) = some Player.BLUE :=
  ⟨C5_wall_mirroring.1 _ (WallReachable.place createInitialBoard 0 0 Side.top Player.RED
      WallReachable.init (by decide)),
    C5_wall_mirroring.2 createInitialBoard 3 3 Side.right Player.BLUE (by decide) (by decide)⟩

/-- Counterexample for C9 as stated: on a board whose (0,0) top edge already
carries a RED wall, applyWall then removeWall erases the pre-existing wall,
so the round trip is not the identity on every board and edge. -/
theorem C9_roundtrip_counterexample :
    (cellAt cexBoardC9 ⟨0, 0⟩).walls.top = some Player.RED
    ∧ (cellAt (removeWall (applyWall cexBoardC9 0 0 Side.top Player.BLUE) 0 0 Side.top)
        ⟨0, 0⟩).walls.top = none
    ∧ removeWall (applyWall cexBoardC9 0 0 Side.top Player.BLUE) 0 0 Side.top ≠ cexBoardC9 := by
  refine ⟨by decide, by decide, by decide⟩

/-- C9 amended: applyWall then removeWall restores the board bit-identically
for every in-bounds cell/side combination whose edge (both facing slots) is
open before the wall is applied, which the AI search guarantees by checking
the near slot and operating on mirrored boards. -/
theorem C9_roundtrip_amended :
    ∀ (b : Board) (x y : Int) (side : Side) (p : Player),
      isValidCoordinate ⟨x, y⟩ →
      (cellAt b ⟨x, y⟩).walls.get side = none →
      (cellAt b (nbrCoord x y side)).walls.get (oppositeSide side) = none →
      removeWall (applyWall b x y side p) x y side = b :=
  fun b x y side p hv h1 h2 => removeWall_applyWall_of_open b x y side p hv h1 h2

/-- Witness for C9 amended at a concrete board and open edge. -/
theorem C9_roundtrip_amended_witness :
    isValidCoordinate (⟨2, 2⟩ : Coordinate)
    ∧ (cellAt scenarioBoard1 ⟨2, 2⟩).walls.get Side.top = none
    ∧ (cellAt scenarioBoard1 (nbrCoord 2 2 Side.top)).walls.get (oppositeSide Side.top) = none
    ∧ removeWall (applyWall scenarioBoard1 2 2 Side.top Player.BLUE) 2 2 Side.top
        = scenarioBoard1 :=
  ⟨by decide, by decide, by decide,
    C9_roundtrip_amended scenarioBoard1 2 2 Side.top Player.BLUE (by decide) (by decide)
      (by decide)⟩

theorem endTurn_board (s : GameState) : (endTurn s).board = s.board := by
  unfold endTurn
  split_ifs <;> rfl

theorem handleWallClick_accept (s : GameState) (x y : Int) (side : Side) (m : Coordinate)
    (hp : s.phase = GamePhase.ACTION_WALL) (hm : s.movedTo = some m)
    (hai : ¬(s.gameMode = some GameMode.PVAI ∧ s.currentPlayer = Player.BLUE))
    (hx : m.x = x) (hy : m.y = y) :
    handleWallClick s x y side =
      endTurn { s with board := placeWall s.board x y side s.currentPlayer } := by
  unfold handleWallClick
  rw [if_neg (fun hne => hne hp), hm]
  dsimp only
  rw [if_neg hai,
    if_neg (show ¬(m.x ≠ x ∨ m.y ≠ y) from fun hcon => by
      rcases hcon with h | h
      · exact h hx
      · exact h hy)]

set_option maxHeartbeats 4000000 in
/-- Counterexample for C3 as stated: in ACTION_WALL on the moved-to cell
(3,3) whose left side already carries a BLUE wall, the wall command is not
rejected; the handler overwrites the wall's owner and the board changes. -/
theorem C3_wall_command_counterexample :
    cexStateC3.phase = GamePhase.ACTION_WALL
    ∧ cexStateC3.movedTo = some ⟨3, 3⟩
    ∧ (cellAt cexStateC3.board ⟨3, 3⟩).walls.get Side.left = some Player.BLUE
    ∧ (cellAt (handleWallClick cexStateC3 3 3 Side.left).board ⟨3, 3⟩).walls.get Side.left
        = some Player.RED
    ∧ (handleWallClick cexStateC3 3 3 Side.left).board ≠ cexStateC3.board := by
  refine ⟨rfl, rfl, by decide, by decide, by decide⟩

/-- C3 amended: a wall command is a silent no-op unless the phase is
ACTION_WALL, a moved-to cell exists, it is not the AI's turn in PVAI mode,
and the coordinate equals the moved-to cell; when those checks pass the wall
is placed without inspecting the side's current wall state, so a command on
an already-walled side of the moved-to cell is accepted and overwrites that
wall's owner with the current player before ending the turn (the open-side
precondition lives only in the UI layer, which renders wall click targets
only on open sides). -/
theorem C3_wall_command_amended :
    (∀ (s : GameState) (x y : Int) (side : Side),
        s.phase ≠ GamePhase.ACTION_WALL → handleWallClick s x y side = s)
    ∧ (∀ (s : GameState) (x y : Int) (side : Side),
        s.movedTo = none → handleWallClick s x y side = s)
    ∧ (∀ (s : GameState) (x y : Int) (side : Side),
        s.gameMode = some GameMode.PVAI → s.currentPlayer = Player.BLUE →
        handleWallClick s x y side = s)
    ∧ (∀ (s : GameState) (x y : Int) (side : Side) (m : Coordinate),
        s.movedTo = some m → m.x ≠ x ∨ m.y ≠ y → handleWallClick s x y side = s)
    ∧ (∀ (s : GameState) (x y : Int) (side : Side) (m : Coordinate),
        s.phase = GamePhase.ACTION_WALL → s.movedTo = some m →
        ¬(s.gameMode = some GameMode.PVAI ∧ s.currentPlayer = Player.BLUE) →
        m.x = x → m.y = y →
        handleWallClick s x y side =
          endTurn { s with board := placeWall s.board x y side s.currentPlayer })
    ∧ (∀ (s : GameState) (x y : Int) (side : Side) (m : Coordinate) (q : Player),
        s.phase = GamePhase.ACTION_WALL → s.movedTo = some m →
        ¬(s.gameMode = some GameMode.PVAI ∧ s.currentPlayer = Player.BLUE) →
        m.x = x → m.y = y → isValidCoordinate ⟨x, y⟩ →
        (cellAt s.board ⟨x, y⟩).walls.get side = some q →
        (cellAt (handleWallClick s x y side).board ⟨x, y⟩).walls.get side
          = some s.currentPlayer) := by
  refine ⟨?_, ?_, ?_, ?_, ?_, ?_⟩
  · intro s x y side h
    unfold handleWallClick
    rw [if_pos h]
  · intro s x y side h
    unfold handleWallClick
    by_cases hp : s.phase ≠ GamePhase.ACTION_WALL
    · rw [if_pos hp]
    · rw [if_neg hp, h]
  · intro s x y side h1 h2
    unfold handleWallClick
    by_cases hp : s.phase ≠ GamePhase.ACTION_WALL
    · rw [if_pos hp]
    · rw [if_neg hp]
      match hm : s.movedTo with
      | none => rfl
      | some m =>
          dsimp only
          rw [if_pos ⟨h1, h2⟩]
  · intro s x y side m hm hne
    unfold handleWallClick
    by_cases hp : s.phase ≠ GamePhase.ACTION_WALL
    · rw [if_pos hp]
    · rw [if_neg hp, hm]
      dsimp only
      by_cases hai : s.gameMode = some GameMode.PVAI ∧ s.currentPlayer = Player.BLUE
      · rw [if_pos hai]
      · rw [if_neg hai, if_pos hne]
  · intro s x y side m hp hm hai hx hy
    exact handleWallClick_accept s x y side m hp hm hai hx hy
  · intro s x y side m q hp hm hai hx hy hv _
    rw [handleWallClick_accept s x y side m hp hm hai hx hy, endTurn_board]
    show (cellAt (placeWall s.board x y side s.currentPlayer) ⟨x, y⟩).walls.get side
      = some s.currentPlayer
    rw [placeWall_eq_wallWrite,
      getWall_wallWrite s.board x y side (some s.currentPlayer) hv _ side,
      if_pos ⟨rfl, rfl⟩]

set_option maxHeartbeats 4000000 in
/-- Witness for C3 amended: a rejection (wrong phase) and the concrete
overwrite of the BLUE wall on the moved-to cell's left side by RED. -/
theorem C3_wall_command_amended_witness :
    (handleWallClick { cexStateC3 with phase := GamePhase.ACTION_SELECT } 3 3 Side.left
        = { cexStateC3 with phase := GamePhase.ACTION_SELECT })
    ∧ (cellAt (handleWallClick cexStateC3 3 3 Side.left).board ⟨3, 3⟩).walls.get Side.left
        = some cexStateC3.currentPlayer :=
  ⟨C3_wall_command_amended.1 { cexStateC3 with phase := GamePhase.ACTION_SELECT } 3 3
      Side.left (by decide),
    C3_wall_command_amended.2.2.2.2.2 cexStateC3 3 3 Side.left ⟨3, 3⟩ Player.BLUE rfl rfl
      (by decide) rfl rfl (by decide) (by decide)⟩

set_option maxHeartbeats 4000000 in
/-- C1 evaluation at the failing input: GREEN at (2,2) and YELLOW at (3,2)
are adjacent with no wall between them, RED is sealed alone in its corner,
yet checkGameEndCondition reports the game over because it only looks for a
RED-to-BLUE path. -/
theorem C1_checkGameEnd_eval :
    (cellAt cexBoardC1 ⟨2, 2⟩).occupant = some Player.GREEN
    ∧ (cellAt cexBoardC1 ⟨3, 2⟩).occupant = some Player.YELLOW
    ∧ (cellAt cexBoardC1 ⟨2, 2⟩).walls.get Side.right = none
    ∧ isBlocked ⟨2, 2⟩ (cellAt cexBoardC1 ⟨2, 2⟩) ⟨3, 2⟩ = false
    ∧ (cellAt cexBoardC1 ⟨0, 0⟩).occupant = some Player.RED
    ∧ (getReachableArea cexBoardC1 Player.RED).length = 1
    ∧ checkGameEndCondition cexBoardC1 = true := by
  refine ⟨by decide, by decide, by decide, by decide, by decide, by decide, by decide⟩

set_option maxHeartbeats 4000000 in
/-- C4 evaluation at the failing input: the timeout handler reaches the
game-over branch but stores winner null, while endTurn on the same state
resolves the winner (BLUE). -/
theorem C4_timeout_winner_null :
    cexStateC4.phase = GamePhase.ACTION_WALL
    ∧ cexStateC4.movedTo = some ⟨0, 0⟩
    ∧ (handleRandomWallPlacement cexStateC4 0
        [Side.top, Side.right, Side.bottom, Side.left]).phase = GamePhase.GAME_OVER
    ∧ (handleRandomWallPlacement cexStateC4 0
        [Side.top, Side.right, Side.bottom, Side.left]).winner = Winner.undecided
    ∧ (endTurn cexStateC4).phase = GamePhase.GAME_OVER
    ∧ (endTurn cexStateC4).winner = Winner.won Player.BLUE := by
  refine ⟨rfl, rfl, by decide, by decide, by decide, by decide⟩

set_option maxHeartbeats 4000000 in
/-- C7 evaluation at the failing input: two RED pieces share the single
empty cell (1,0) of a walled-off strip; the single merged territory has 3
cells (and RED's whole reachable area is exactly those 3 cells), but
calculateLargestTerritory returns 2 because each piece's flood recounts the
shared cell in its own component. -/
theorem C7_largest_territory_eval :
    (cellAt cexBoardC7 ⟨0, 0⟩).occupant = some Player.RED
    ∧ (cellAt cexBoardC7 ⟨2, 0⟩).occupant = some Player.RED
    ∧ (cellAt cexBoardC7 ⟨1, 0⟩).occupant = none
    ∧ isBlocked ⟨0, 0⟩ (cellAt cexBoardC7 ⟨0, 0⟩) ⟨1, 0⟩ = false
    ∧ isBlocked ⟨2, 0⟩ (cellAt cexBoardC7 ⟨2, 0⟩) ⟨1, 0⟩ = false
    ∧ (getReachableArea cexBoardC7 Player.RED).length = 3
    ∧ calculateLargestTerritory cexBoardC7 Player.RED = 2 := by
  refine ⟨by decide, by decide, by decide, by decide, by decide, by decide, by decide⟩

/-- Witness for C6 at the empty board and origin (3,3). -/
theorem C6_getValidMoves_witness :
    isValidCoordinate (⟨3, 3⟩ : Coordinate)
    ∧ ((getValidMoves createInitialBoard ⟨3, 3⟩).Nodup
        ∧ (⟨3, 3⟩ : Coordinate) ∈ getValidMoves createInitialBoard ⟨3, 3⟩
        ∧ (∀ c, c ∈ getValidMoves createInitialBoard ⟨3, 3⟩
            ↔ reachWithin2 createInitialBoard ⟨3, 3⟩ c)) :=
  ⟨by decide, C6_getValidMoves.1 createInitialBoard ⟨3, 3⟩ (by decide)⟩


/-- The deep clone copies every field value, so on values it is the
identity. -/
theorem deepCloneBoard_id (b : Board) : deepCloneBoard b = b := rfl

theorem cellAt_setOccupant_ne (b : Board) (c d : Coordinate) (o : Option Player)
    (h : c ≠ d) : cellAt (setOccupant b c o) d = cellAt b d :=
  cellAt_setCellAt_ne b c d _ h

theorem occupant_setOccupant_same (b : Board) (c : Coordinate) (o : Option Player)
    (h : isValidCoordinate c) : (cellAt (setOccupant b c o) c).occupant = o := by
  unfold setOccupant
  rw [cellAt_setCellAt_same b c _ h]

theorem walls_setOccupant (b : Board) (c : Coordinate) (o : Option Player)
    (d : Coordinate) : (cellAt (setOccupant b c o) d).walls = (cellAt b d).walls := by
  by_cases hv : isValidCoordinate c
  · by_cases he : c = d
    · subst he
      unfold setOccupant
      rw [cellAt_setCellAt_same b c _ hv]
    · rw [cellAt_setOccupant_ne b c d o he]
  · unfold setOccupant
    rw [setCellAt_invalid b c _ hv]

theorem mirror_setOccupant (b : Board) (c : Coordinate) (o : Option Player)
    (hm : Mirror b) : Mirror (setOccupant b c o) := by
  constructor
  · intro a ha d hd
    simp only [cellAtN]
    rw [walls_setOccupant, walls_setOccupant]
    exact (by simpa only [cellAtN] using hm.1 a ha d hd)
  · intro a ha d hd
    simp only [cellAtN]
    rw [walls_setOccupant, walls_setOccupant]
    exact (by simpa only [cellAtN] using hm.2 a ha d hd)

/-- On a mirrored board, an open wall slot has an open facing slot on the
neighbour (out-of-bounds neighbours read as the empty cell). -/
theorem mirror_open_nbr (b : Board) (hm : Mirror b) (c : Coordinate)
    (hv : isValidCoordinate c) (side : Side)
    (hopen : (cellAt b c).walls.get side = none) :
    (cellAt b (nbrCoord c.x c.y side)).walls.get (oppositeSide side) = none := by
  have hx0 : 0 ≤ c.x := hv.1
  have hx7 : c.x < 7 := by have h := hv.2.1; simp only [BOARD_SIZE] at h; exact h
  have hy0 : 0 ≤ c.y := hv.2.2.1
  have hy7 : c.y < 7 := by have h := hv.2.2.2; simp only [BOARD_SIZE] at h; exact h
  cases side
  case top =>
    show (cellAt b ⟨c.x, c.y - 1⟩).walls.get Side.bottom = none
    by_cases hy : c.y = 0
    · have hinv : ¬ isValidCoordinate (⟨c.x, c.y - 1⟩ : Coordinate) := by
        simp only [isValidCoordinate, BOARD_SIZE]
        omega
      unfold cellAt
      rw [dif_neg hinv]
      exact emptyCell_get _
    · have hxx : ((c.x.toNat : Nat) : Int) = c.x := Int.toNat_of_nonneg hx0
      have hyy : (((c.y - 1).toNat : Nat) : Int) = c.y - 1 :=
        Int.toNat_of_nonneg (by omega)
      have hyy1 : ((((c.y - 1).toNat + 1 : Nat)) : Int) = c.y := by
        push_cast
        omega
      have h2 := hm.2 c.x.toNat (by omega) (c.y - 1).toNat (by omega)
      simp only [cellAtN] at h2
      rw [hxx, hyy, hyy1] at h2
      rw [h2]
      exact hopen
  case bottom =>
    show (cellAt b ⟨c.x, c.y + 1⟩).walls.get Side.top = none
    by_cases hy : c.y = 6
    · have hinv : ¬ isValidCoordinate (⟨c.x, c.y + 1⟩ : Coordinate) := by
        simp only [isValidCoordinate, BOARD_SIZE]
        omega
      unfold cellAt
      rw [dif_neg hinv]
      exact emptyCell_get _
    · have hxx : ((c.x.toNat : Nat) : Int) = c.x := Int.toNat_of_nonneg hx0
      have hyy : ((c.y.toNat : Nat) : Int) = c.y := Int.toNat_of_nonneg hy0
      have hyy1 : (((c.y.toNat + 1 : Nat)) : Int) = c.y + 1 := by
        push_cast
        omega
      have h2 := hm.2 c.x.toNat (by omega) c.y.toNat (by omega)
      simp only [cellAtN] at h2
      rw [hxx, hyy, hyy1] at h2
      rw [← h2]
      exact hopen
  case left =>
    show (cellAt b ⟨c.x - 1, c.y⟩).walls.get Side.right = none
    by_cases hx : c.x = 0
    · have hinv : ¬ isValidCoordinate (⟨c.x - 1, c.y⟩ : Coordinate) := by
        simp only [isValidCoordinate, BOARD_SIZE]
        omega
      unfold cellAt
      rw [dif_neg hinv]
      exact emptyCell_get _
    · have hyy : ((c.y.toNat : Nat) : Int) = c.y := Int.toNat_of_nonneg hy0
      have hxx : (((c.x - 1).toNat : Nat) : Int) = c.x - 1 :=
        Int.toNat_of_nonneg (by omega)
      have hxx1 : ((((c.x - 1).toNat + 1 : Nat)) : Int) = c.x := by
        push_cast
        omega
      have h2 := hm.1 (c.x - 1).toNat (by omega) c.y.toNat (by omega)
      simp only [cellAtN] at h2
      rw [hyy, hxx, hxx1] at h2
      rw [h2]
      exact hopen
  case right =>
    show (cellAt b ⟨c.x + 1, c.y⟩).walls.get Side.left = none
    by_cases hx : c.x = 6
    · have hinv : ¬ isValidCoordinate (⟨c.x + 1, c.y⟩ : Coordinate) := by
        simp only [isValidCoordinate, BOARD_SIZE]
        omega
      unfold cellAt
      rw [dif_neg hinv]
      exact emptyCell_get _
    · have hyy : ((c.y.toNat : Nat) : Int) = c.y := Int.toNat_of_nonneg hy0
      have hxx : ((c.x.toNat : Nat) : Int) = c.x := Int.toNat_of_nonneg hx0
      have hxx1 : (((c.x.toNat + 1 : Nat)) : Int) = c.x + 1 := by
        push_cast
        omega
      have h2 := hm.1 c.x.toNat (by omega) c.y.toNat (by omega)
      simp only [cellAtN] at h2
      rw [hyy, hxx, hxx1] at h2
      rw [← h2]
      exact hopen

/-- Moving a piece out and back (the AI search's undo of a trial move)
restores the board exactly. -/
theorem setOccupant_undo (b : Board) (piece move : Coordinate) (ai : Player)
    (hvp : isValidCoordinate piece)
    (hop : (cellAt b piece).occupant = some ai)
    (hmv : move = piece ∨ (isValidCoordinate move ∧ (cellAt b move).occupant = none)) :
    setOccupant (setOccupant (setOccupant (setOccupant b piece none) move (some ai))
      move none) piece (some ai) = b := by
  apply board_ext
  intro d hd
  apply CellData.ext_parts
  · by_cases hdp : d = piece
    · subst hdp
      rw [occupant_setOccupant_same _ d (some ai) hvp, hop]
    · rw [cellAt_setOccupant_ne _ piece d (some ai) (fun h => hdp h.symm)]
      by_cases hdm : d = move
      · subst hdm
        rcases hmv with h | h
        · exact absurd h.symm (fun h2 => hdp h2.symm)
        · rw [occupant_setOccupant_same _ d none h.1, h.2]
      · rw [cellAt_setOccupant_ne _ move d none (fun h => hdm h.symm),
          cellAt_setOccupant_ne _ move d (some ai) (fun h => hdm h.symm),
          cellAt_setOccupant_ne _ piece d none (fun h => hdp h.symm)]
  · rw [walls_setOccupant, walls_setOccupant, walls_setOccupant, walls_setOccupant]

/-- The inner wall-trial loop body of the AI search leaves its working board
unchanged: walled sides are skipped, and applied walls are removed again,
which is exact on a mirrored board. -/
theorem aiTrySide_board (ai opp : Player) (piece move : Coordinate)
    (st : AiSearchState) (side : Side) (hm : Mirror st.board)
    (hvm : isValidCoordinate move) :
    (aiTrySide ai opp piece move st side).board = st.board := by
  unfold aiTrySide
  cases hcase : (cellAt st.board move).walls.get side with
  | some p => rw [if_pos (show (some p).isSome = true from rfl)]
  | none =>
    rw [if_neg (show ¬(none : Option Player).isSome = true by simp)]
    show removeWall (applyWall st.board move.x move.y side ai) move.x move.y side = st.board
    exact removeWall_applyWall_of_open st.board move.x move.y side ai hvm hcase
      (mirror_open_nbr st.board hm move hvm side hcase)

theorem aiTrySide_foldl_board (ai opp : Player) (piece move : Coordinate)
    (sides : List Side) :
    ∀ st : AiSearchState, Mirror st.board → isValidCoordinate move →
      (sides.foldl (aiTrySide ai opp piece move) st).board = st.board := by
  induction sides with
  | nil => intro st _ _; rfl
  | cons s ss ih =>
    intro st hm hvm
    have h1 : (aiTrySide ai opp piece move st s).board = st.board :=
      aiTrySide_board ai opp piece move st s hm hvm
    rw [List.foldl_cons,
      ih (aiTrySide ai opp piece move st s) (by rw [h1]; exact hm) hvm, h1]

/-- The per-destination loop body of the AI search leaves its working board
unchanged: the trial move is undone after the wall trials. -/
theorem aiTryMove_board (ai opp : Player) (piece : Coordinate) (st : AiSearchState)
    (move : Coordinate) (hm : Mirror st.board) (hvp : isValidCoordinate piece)
    (hop : (cellAt st.board piece).occupant = some ai)
    (hmv : move = piece ∨ (isValidCoordinate move ∧ (cellAt st.board move).occupant = none)) :
    (aiTryMove ai opp piece st move).board = st.board := by
  have hvm : isValidCoordinate move := by
    rcases hmv with h | h
    · rw [h]; exact hvp
    · exact h.1
  have hm1 : Mirror (setOccupant (setOccupant st.board piece none) move (some ai)) :=
    mirror_setOccupant _ _ _ (mirror_setOccupant _ _ _ hm)
  have hfold := aiTrySide_foldl_board ai opp piece move possibleWalls
    { st with board := setOccupant (setOccupant st.board piece none) move (some ai) } hm1 hvm
  show setOccupant (setOccupant
      (possibleWalls.foldl (aiTrySide ai opp piece move)
        { st with board := setOccupant (setOccupant st.board piece none) move (some ai) }).board
      move none) piece (some ai) = st.board
  rw [hfold]
  exact setOccupant_undo st.board piece move ai hvp hop hmv

theorem occupant_of_mem_piecesOf (b : Board) (p : Player) (c : Coordinate)
    (h : c ∈ piecesOf b p) : (cellAt b c).occupant = some p := by
  have h2 := List.of_mem_filter h
  simpa using h2

/-- Every destination returned by getValidMoves is the origin itself or a
valid empty cell. -/
theorem mem_getValidMoves_target (b : Board) (start c : Coordinate)
    (hstart : isValidCoordinate start) (hc : c ∈ getValidMoves b start) :
    c = start ∨ (isValidCoordinate c ∧ (cellAt b c).occupant = none) := by
  have h := ((getValidMoves_characterization b start hstart).2.2 c).mp hc
  rcases h with h | h | ⟨m, _, h⟩
  · exact Or.inl h
  · exact Or.inr ⟨h.2.1, h.2.2.2⟩
  · exact Or.inr ⟨h.2.1, h.2.2.2⟩

theorem aiTryMove_foldl_board (ai opp : Player) (piece : Coordinate)
    (moves : List Coordinate) :
    ∀ st : AiSearchState, Mirror st.board → isValidCoordinate piece →
      (cellAt st.board piece).occupant = some ai →
      (∀ c ∈ moves, c = piece ∨ (isValidCoordinate c ∧ (cellAt st.board c).occupant = none)) →
      (moves.foldl (aiTryMove ai opp piece) st).board = st.board := by
  induction moves with
  | nil => intro st _ _ _ _; rfl
  | cons m ms ih =>
    intro st hm hvp hop hmv
    have h1 : (aiTryMove ai opp piece st m).board = st.board :=
      aiTryMove_board ai opp piece st m hm hvp hop (hmv m (List.mem_cons_self _ _))
    rw [List.foldl_cons,
      ih (aiTryMove ai opp piece st m) (by rw [h1]; exact hm) hvp (by rw [h1]; exact hop)
        (fun c hc => by rw [h1]; exact hmv c (List.mem_cons_of_mem _ hc)), h1]

/-- The per-piece loop body of the AI search leaves its working board
unchanged. -/
theorem aiTryPiece_board (ai opp : Player) (st : AiSearchState) (piece : Coordinate)
    (hm : Mirror st.board) (hp : piece ∈ piecesOf st.board ai) :
    (aiTryPiece ai opp st piece).board = st.board := by
  have hvp : isValidCoordinate piece := piecesOf_valid st.board ai piece hp
  have hop : (cellAt st.board piece).occupant = some ai :=
    occupant_of_mem_piecesOf st.board ai piece hp
  exact aiTryMove_foldl_board ai opp piece (getValidMoves st.board piece) st hm hvp hop
    (fun c hc => mem_getValidMoves_target st.board piece c hvp hc)

theorem aiTryPiece_foldl_board (ai opp : Player) (pieces : List Coordinate) :
    ∀ st : AiSearchState, Mirror st.board →
      (∀ c ∈ pieces, c ∈ piecesOf st.board ai) →
      (pieces.foldl (aiTryPiece ai opp) st).board = st.board := by
  induction pieces with
  | nil => intro st _ _; rfl
  | cons p ps ih =>
    intro st hm hp
    have h1 := aiTryPiece_board ai opp st p hm (hp p (List.mem_cons_self _ _))
    rw [List.foldl_cons,
      ih (aiTryPiece ai opp st p) (by rw [h1]; exact hm)
        (fun c hc => by rw [h1]; exact hp c (List.mem_cons_of_mem _ hc)), h1]

theorem calculateBestMove_board (b : Board) (ai opp : Player) (rands : List ℚ)
    (hm : Mirror b) : (calculateBestMove b ai opp rands).2 = b := by
  show ((piecesOf (deepCloneBoard b) ai).foldl (aiTryPiece ai opp)
      { board := deepCloneBoard b, best := none, maxScore := none, rands := rands }).board = b
  rw [deepCloneBoard_id b]
  exact aiTryPiece_foldl_board ai opp (piecesOf b ai)
    { board := b, best := none, maxScore := none, rands := rands } hm (fun c hc => hc)

/-- C10: on any mirrored board (the invariant every game board satisfies,
since all walls are placed with mirroring), calculateBestMove leaves the
caller's board completely unchanged: the search runs on a deep copy that is
value-identical to the input, and every trial move and wall placement on
that copy is undone exactly, so the working board returned at the end of
the search still equals the input board cell for cell and wall for wall. -/
theorem C10_ai_preserves_board (b : Board) (ai opp : Player) (rands : List ℚ)
    (hm : Mirror b) :
    deepCloneBoard b = b ∧ (calculateBestMove b ai opp rands).2 = b :=
  ⟨deepCloneBoard_id b, calculateBestMove_board b ai opp rands hm⟩

/-- Witness for C10 at a concrete mirrored two-piece board. -/
theorem C10_ai_preserves_board_witness :
    Mirror (mkBoard [(⟨3, 3⟩, Player.BLUE), (⟨0, 0⟩, Player.RED)] [(2, 2, Side.top)])
    ∧ (deepCloneBoard (mkBoard [(⟨3, 3⟩, Player.BLUE), (⟨0, 0⟩, Player.RED)] [(2, 2, Side.top)])
        = mkBoard [(⟨3, 3⟩, Player.BLUE), (⟨0, 0⟩, Player.RED)] [(2, 2, Side.top)]
      ∧ (calculateBestMove (mkBoard [(⟨3, 3⟩, Player.BLUE), (⟨0, 0⟩, Player.RED)]
          [(2, 2, Side.top)]) Player.BLUE Player.RED []).2
        = mkBoard [(⟨3, 3⟩, Player.BLUE), (⟨0, 0⟩, Player.RED)] [(2, 2, Side.top)]) :=
  ⟨by decide,
    C10_ai_preserves_board (mkBoard [(⟨3, 3⟩, Player.BLUE), (⟨0, 0⟩, Player.RED)]
      [(2, 2, Side.top)]) Player.BLUE Player.RED [] (by decide)⟩


end WallGo
